import Mathlib

/-!
Package `types` of dimfeld/stocks: a verification development.

The package (`types.go`, `trades.go`) declares the broker-agnostic data model of a trading
platform: accounts, quotes, option chains, trades, executions and two sentinel errors.  Its only
function bodies are `Account.String` and `ErrorWithCode.Code`; everything else is declarative
(struct fields with `json` tags, constants).

The development embeds

* the formatting call of `Account.String` (a fragment of `fmt.Sprintf`),
* the error values (`errors.New`, the struct `ErrorWithCode`, the two sentinels),
* the constant blocks (`Tristate`, `SymbolType`, `PutOrCall`),
* the struct declarations, each as a Lean structure together with its table of `json` tags, and
  the behaviour `encoding/json` derives from those tags (`Marshal`, `Unmarshal`).

Go strings are byte strings; they are modelled by Lean strings (sequences of Unicode code
points).  All literals of the package are ASCII.
-/

namespace Types

/-! ## `fmt.Sprintf` on string operands -/

/-- Text that `fmt` appends after the format is exhausted while operands remain unused:
`%!(EXTRA string=a, string=b)`. -/
def sprintfExtra (args : List String) : String :=
  "%!(EXTRA " ++ ", ".intercalate (args.map (fun a => "string=" ++ a)) ++ ")"

/-- Worker of `Sprintf`: scans the format left to right, `out` is the text produced so far.
The fragment covered is: literal characters, `%%`, and the verbs `%s` and `%v` applied to string
operands (both print the operand unchanged).  A verb without operand prints `%!s(MISSING)`.
Any other directive (flags, width, precision, other verbs) is outside the fragment: `none`. -/
def sprintfAux : List Char → List String → String → Option String
  | [], [], out => some out
  | [], a :: args, out => some (out ++ sprintfExtra (a :: args))
  | '%' :: '%' :: fmt, args, out => sprintfAux fmt args (out ++ "%")
  | '%' :: 's' :: fmt, a :: args, out => sprintfAux fmt args (out ++ a)
  | '%' :: 's' :: fmt, [], out => sprintfAux fmt [] (out ++ "%!s(MISSING)")
  | '%' :: 'v' :: fmt, a :: args, out => sprintfAux fmt args (out ++ a)
  | '%' :: 'v' :: fmt, [], out => sprintfAux fmt [] (out ++ "%!v(MISSING)")
  | '%' :: _, _, _ => none
  | c :: fmt, args, out => sprintfAux fmt args (out.push c)

/-- The call `fmt.Sprintf(format, args...)` with string operands. -/
def Sprintf (format : String) (args : List String) : Option String :=
  sprintfAux format.data args ""

/-! ## Accounts -/

/-- Go struct `Account`. -/
structure Account where
  Id : String := ""
  Broker : String := ""
  Description : String := ""
  deriving DecidableEq, Repr

/-- Method `func (a Account) String() string`:
`fmt.Sprintf("%s:%s - %s", a.Broker, a.Id, a.Description)`.
The result is `none` only if the format left the modelled fragment of `Sprintf`. -/
def Account.String (a : Account) : Option String :=
  Sprintf "%s:%s - %s" [a.Broker, a.Id, a.Description]

/-! ## Errors -/

/-- Values of the Go interface type `error` that the package can build: the nil interface,
the value returned by `errors.New(s)`, and an `ErrorWithCode` struct stored in the interface.
Two calls of `errors.New` return different pointers; the model identifies them when the texts
agree, so values that differ in the model differ in Go. -/
inductive GoError where
  | nil
  | errorString (s : String)
  | withCode (inner : GoError) (code : Int)
  deriving DecidableEq, Repr

/-- Function `errors.New`. -/
def errorsNew (text : String) : GoError := .errorString text

/-- Go struct `ErrorWithCode`: an embedded `error` and an unexported `code int`. -/
structure ErrorWithCode where
  error : GoError
  code : Int
  deriving DecidableEq, Repr

/-- Method `func (ec ErrorWithCode) Code() int`. -/
def ErrorWithCode.Code (ec : ErrorWithCode) : Int := ec.code

/-- Method `Error() string` of an `error` value; calling it on the nil interface panics
(`none`).  For `ErrorWithCode` the method is promoted from the embedded `error`. -/
def GoError.Error : GoError → Option String
  | .nil => none
  | .errorString s => some s
  | .withCode inner _ => inner.Error

/-- Promoted method `ErrorWithCode.Error`. -/
def ErrorWithCode.Error (ec : ErrorWithCode) : Option String := ec.error.Error

/-- Conversion of an `ErrorWithCode` to the interface type `error`. -/
def ErrorWithCode.toError (ec : ErrorWithCode) : GoError := .withCode ec.error ec.code

/-- The capability check `err.(interface{ Code() int })` followed by the call of `Code`:
`none` when the dynamic type of `err` has no `Code` method. -/
def GoError.code? : GoError → Option Int
  | .withCode inner code => some (ErrorWithCode.Code ⟨inner, code⟩)
  | _ => none

/-- Constant `http.StatusNotFound` of `net/http`. -/
def StatusNotFound : Int := 404

/-- Package variable `ErrSymbolNotFound`. -/
def ErrSymbolNotFound : ErrorWithCode := ⟨errorsNew "symbol not found", StatusNotFound⟩

/-- Package variable `ErrDisconnected`. -/
def ErrDisconnected : GoError := errorsNew "broker disconnected"

/-! ## Constant blocks -/

/-- Value of `iota` in the constant specification with the given index of a `const` block. -/
def iota (specIndex : Nat) : Int := specIndex

/-- Go type `Tristate` (`int`). -/
abbrev Tristate := Int

/-- Constant `Yes Tristate = iota`. -/
def Yes : Tristate := iota 0
/-- Constant `No` (implicit repetition of `Tristate = iota`). -/
def No : Tristate := iota 1
/-- Constant `Maybe` (implicit repetition of `Tristate = iota`). -/
def Maybe : Tristate := iota 2

/-- Go type `SymbolType` (`int`). -/
abbrev SymbolType := Int

/-- Constant `SymbolEquity SymbolType = iota`. -/
def SymbolEquity : SymbolType := iota 0
/-- Constant `SymbolOption`. -/
def SymbolOption : SymbolType := iota 1

/-- Go type `PutOrCall` (`string`). -/
structure PutOrCall where
  val : String := ""
  deriving DecidableEq, Repr

/-- Type of a Go string constant: untyped, or of a named type. -/
inductive ConstType where
  | untyped
  | named (typeName : String)
  deriving DecidableEq, Repr

/-- A declared Go string constant. -/
structure StringConst where
  typ : ConstType
  val : String
  deriving DecidableEq, Repr

/-- Constant `Put PutOrCall = "PUT"`. -/
def Put : StringConst := ⟨.named "PutOrCall", "PUT"⟩

/-- Constant `Call = "CALL"`.  The specification has its own expression and no type, so the
type of `Put` is not repeated: `Call` is an untyped string constant. -/
def Call : StringConst := ⟨.untyped, "CALL"⟩

/-- Type a string constant takes where the context gives none (`x := c`, an operand of
`fmt.Sprintf("%T", c)`): its own type, or the default type `string` of an untyped constant. -/
def StringConst.defaultType (c : StringConst) : String :=
  match c.typ with
  | .untyped => "string"
  | .named n => n

/-- Use of a string constant where a `PutOrCall` is expected (a field `Type`, a comparison with
a `PutOrCall`): allowed for a constant of type `PutOrCall` and for an untyped string constant,
which is converted implicitly; a constant of another named type is rejected by the compiler. -/
def StringConst.asPutOrCall (c : StringConst) : Option PutOrCall :=
  match c.typ with
  | .untyped => some ⟨c.val⟩
  | .named n => if n = "PutOrCall" then some ⟨c.val⟩ else none

/-! ## Vendor extension -/

/-- A Go `map[string]string`: `none` is the nil map, otherwise the entries; the first entry
with a given key is the binding of that key. -/
abbrev StringMap := Option (List (String × String))

/-- A Go `[]string`: `none` is the nil slice. -/
abbrev StringSlice := Option (List String)

/-- Index expression `v, ok := m[k]`: `none` stands for `ok == false`.  Reading a nil map is
allowed and finds nothing. -/
def StringMap.get (m : StringMap) (k : String) : Option String :=
  match m with
  | none => none
  | some entries => entries.lookup k

/-- Keys bound in a map. -/
def StringMap.keys (m : StringMap) : List String :=
  match m with
  | none => []
  | some entries => entries.map Prod.fst

/-- Go struct `VendorSpecific`. -/
structure VendorSpecific where
  Data : StringMap := none
  Keys : StringSlice := none
  deriving DecidableEq, Repr

/-- The consumer loop `for _, k := range v.Keys { s, ok := v.Data[k]; ... }`: one lookup result
per key, in the order of `Keys`. -/
def VendorSpecific.lookups (v : VendorSpecific) : List (String × Option String) :=
  (v.Keys.getD []).map (fun k => (k, v.Data.get k))

/-! ## Go values of the kinds used by the package's struct fields -/

/-- A Go `float64` by its IEEE 754 binary64 fields.  Exponent `2047` is an infinity (mantissa
`0`) or a NaN; exponent `0` with mantissa `0` is `+0` or `-0`. -/
structure Float64 where
  sign : Bool := false
  exponent : Fin 2048 := 0
  mantissa : Fin 4503599627370496 := 0
  deriving DecidableEq, Repr

/-- Comparison `f == 0` of Go: true for `+0` and `-0`. -/
def Float64.isZero (f : Float64) : Bool := f.exponent == 0 && f.mantissa == 0

/-- Disjunction `math.IsNaN(f) || math.IsInf(f, 0)`. -/
def Float64.isNaNOrInf (f : Float64) : Bool := f.exponent == 2047

/-- A Go `int64` (and `int` on a 64-bit platform). -/
abbrev Int64 := { i : Int // -9223372036854775808 ≤ i ∧ i < 9223372036854775808 }

/-- The `int64` zero. -/
def Int64.zero : Int64 := ⟨0, by decide⟩

/-- Conversion of a parsed integer literal, failing outside the `int64` range. -/
def Int64.ofInt? (i : Int) : Option Int64 :=
  if h : -9223372036854775808 ≤ i ∧ i < 9223372036854775808 then some ⟨i, h⟩ else none

/-- A Go `time.Time`, by what it denotes: the instant (`sec` seconds and `nsec` nanoseconds
since January 1 of year 1, 00:00:00 UTC), the optional monotonic clock reading, and the zone:
`none` is UTC (the location pointer is nil), `some off` is another location whose offset at that
instant is `off` seconds east of UTC.  The zero value `time.Time{}` is all-zero in UTC. -/
structure Time where
  sec : Int := 0
  nsec : Nat := 0
  mono : Option Int := none
  zone : Option Int := none
  deriving DecidableEq, Repr

/-- Zone offset in effect, in seconds east of UTC. -/
def Time.offset (t : Time) : Int := t.zone.getD 0

/-- Condition of `Time.MarshalJSON`: the year of the local date lies in `[0, 9999]` and the
zone offset is less than 24 hours.  Year 0 starts 366 days before year 1 and year 10000 starts
3652059 days after it. -/
def Time.marshalable (t : Time) : Bool :=
  decide (-31622400 ≤ t.sec + t.offset) && decide (t.sec + t.offset < 315537897600) &&
    decide (-86400 < t.offset) && decide (t.offset < 86400)

/-! ## JSON values

JSON texts are not modelled character by character.  A scalar token stands for the JSON text
that `encoding/json` writes for the Go value it carries, and decoding a token into a field of
the same kind gives that value back (number and RFC 3339 formatting of Go round-trip). -/

/-- JSON values that occur as members of the objects written for the package's structs. -/
inductive Tok where
  /-- Literal `null`. -/
  | null
  /-- Literal `true` or `false`. -/
  | bool (b : Bool)
  /-- Integer literal. -/
  | int (i : Int)
  /-- Number written for a finite `float64`. -/
  | float (f : Float64)
  /-- String literal (of a Go string that is valid UTF-8). -/
  | str (s : String)
  /-- String literal holding the RFC 3339 text of an instant with a zone offset. -/
  | time (sec : Int) (nsec : Nat) (offset : Int)
  /-- Array of string literals. -/
  | strs (xs : List String)
  /-- Array of numbers written for finite `float64` values. -/
  | floats (xs : List Float64)
  /-- Object with string members, in key order. -/
  | strMap (entries : List (String × String))
  /-- Another number literal, uninterpreted (one with a fraction or an exponent that is not
  the rendering of a `float64`, such as the `1e400` written for `json.Number("1e400")`); `fits`
  says whether it lies within the range of `float64`. -/
  | number (text : String) (fits : Bool)
  /-- Another object or array, uninterpreted; `fits` says whether every number in it lies
  within the range of `float64`. -/
  | raw (text : String) (fits : Bool)
  /-- The text written when the generic Go value decoded from `t` is marshalled again
  (object keys sorted, numbers reformatted); uninterpreted. -/
  | regen (t : Tok)
  deriving DecidableEq, Repr

/-- JSON values at the top level of an object: a token, or an array whose elements are `null`
or objects with token members. -/
inductive JSON where
  | tok (t : Tok)
  | objects (xs : List (Option (List (String × Tok))))
  deriving DecidableEq, Repr

/-- A dynamic Go value stored in an `interface{}` field. -/
inductive Dyn where
  /-- A value that `json.Marshal` writes as the JSON value `t` (a typed nil pointer is written
  as `null`). -/
  | marshals (t : Tok)
  /-- The generic value (`map[string]interface{}`, `[]interface{}`, `float64`, `string`, `bool`)
  that `json.Unmarshal` builds from the JSON value `t`. -/
  | generic (t : Tok)
  /-- A value `json.Marshal` rejects (channel, function, complex number). -/
  | unsupported
  deriving DecidableEq, Repr

/-- Kinds of the fields that hold no struct. -/
inductive LeafKind where
  | float64 | int | int64 | string | bool | time | stringSlice | float64Slice | iface | stringMap
  deriving DecidableEq, Repr

/-- Values of the leaf kinds.  `string` also holds values of named string types
(`PutOrCall`), whose `reflect.Kind` is `String`. -/
inductive Leaf where
  | float64 (f : Float64)
  | int (i : Int64)
  | int64 (i : Int64)
  | string (s : String)
  | bool (b : Bool)
  | time (t : Time)
  | stringSlice (xs : StringSlice)
  | float64Slice (xs : Option (List Float64))
  | iface (d : Option Dyn)
  | stringMap (m : StringMap)
  deriving DecidableEq, Repr

/-- Kind of a leaf value. -/
def Leaf.kind : Leaf → LeafKind
  | .float64 _ => .float64
  | .int _ => .int
  | .int64 _ => .int64
  | .string _ => .string
  | .bool _ => .bool
  | .time _ => .time
  | .stringSlice _ => .stringSlice
  | .float64Slice _ => .float64Slice
  | .iface _ => .iface
  | .stringMap _ => .stringMap

/-- Zero value of a leaf kind. -/
def LeafKind.zero : LeafKind → Leaf
  | .float64 => .float64 {}
  | .int => .int Int64.zero
  | .int64 => .int64 Int64.zero
  | .string => .string ""
  | .bool => .bool false
  | .time => .time {}
  | .stringSlice => .stringSlice none
  | .float64Slice => .float64Slice none
  | .iface => .iface none
  | .stringMap => .stringMap none

/-- Kinds of struct fields: a leaf kind, or `[]*Execution`. -/
inductive Kind where
  | leaf (k : LeafKind)
  | execs
  deriving DecidableEq, Repr

/-- Field values: a leaf, or a `[]*Execution` (`none` is the nil slice; an element is `none`
for a nil pointer, otherwise the field values of the `Execution` pointed to). -/
inductive Value where
  | leaf (l : Leaf)
  | execs (xs : Option (List (Option (List Leaf))))
  deriving DecidableEq, Repr

/-- Kind of a field value. -/
def Value.kind : Value → Kind
  | .leaf l => .leaf l.kind
  | .execs _ => .execs

/-- Zero value of a kind. -/
def Kind.zero : Kind → Value
  | .leaf k => .leaf k.zero
  | .execs => .execs none

/-! ## Struct fields and their `json` tags -/

/-- A struct field as `encoding/json` sees it: the Go name, the kind of the field's type, the
value of the `json` key of its tag (empty when there is none), and the number of embedded
structs through which the field is reached (`0` for a field declared in the struct itself). -/
structure Field (K : Type) where
  goName : String
  kind : K
  tag : String
  depth : Nat := 0
  deriving DecidableEq, Repr

/-- Call `strings.Cut(s, ",")`: the text before the first comma and the text after it. -/
def cutComma : List Char → List Char × List Char
  | [] => ([], [])
  | c :: cs => if c = ',' then ([], cs) else ((cutComma cs).1.cons c, (cutComma cs).2)

/-- The comma-separated options after the tag name. -/
def splitComma : List Char → List (List Char)
  | [] => [[]]
  | c :: cs =>
    if c = ',' then [] :: splitComma cs
    else match splitComma cs with
      | [] => [[c]]
      | o :: os => (c :: o) :: os

/-- Function `isValidTag` of `encoding/json` on ASCII names: non-empty, and made of letters,
digits and the listed punctuation. -/
def isValidTag (name : List Char) : Bool :=
  !name.isEmpty &&
    name.all (fun c => "!#$%&()*+-./:;<=>?@[]^_\x7b|\x7d~ ".data.contains c || c.isAlpha || c.isDigit)

/-- A field with tag `json:"-"` is left out of the encoding. -/
def Field.skipped {K : Type} (f : Field K) : Bool := f.tag == "-"

/-- Whether the tag gives the field a valid name. -/
def Field.tagged {K : Type} (f : Field K) : Bool := isValidTag (cutComma f.tag.data).1

/-- Key of the field in the JSON object: the tag name, or the Go name without one. -/
def Field.jsonName {K : Type} (f : Field K) : String :=
  if f.tagged then String.mk (cutComma f.tag.data).1 else f.goName

/-- Whether the tag has the option `omitempty`. -/
def Field.omitEmpty {K : Type} (f : Field K) : Bool :=
  (splitComma (cutComma f.tag.data).2).contains "omitempty".data

/-- Dominance between two fields of the same JSON name: the shallower one wins; at equal depth
a tagged field wins over an untagged one. -/
def Field.dominates {K : Type} (f g : Field K) : Bool :=
  decide (f.depth < g.depth) || (f.depth == g.depth && f.tagged && !g.tagged)

/-- Whether field number `i` takes part in the encoding: it is not skipped and it dominates
every other candidate of the same JSON name (otherwise `encoding/json` drops it silently). -/
def visible {K : Type} (fields : List (Field K)) (i : Nat) (f : Field K) : Bool :=
  !f.skipped &&
    fields.enum.all (fun jg =>
      jg.1 == i || jg.2.skipped || jg.2.jsonName != f.jsonName || f.dominates jg.2)

/-- The fields `encoding/json` encodes, each with its position in the struct. -/
def typeFields {K : Type} (fields : List (Field K)) : List (Nat × Field K) :=
  fields.enum.filter (fun jf => visible fields jf.1 jf.2)

/-- Promotion of the fields of an embedded struct into the enclosing struct. -/
def promote {K : Type} (fields : List (Field K)) : List (Field K) :=
  fields.map (fun f => { f with depth := f.depth + 1 })

/-- View of a leaf field as a field of a struct that may also hold `[]*Execution`. -/
def Field.lift (f : Field LeafKind) : Field Kind :=
  { goName := f.goName, kind := .leaf f.kind, tag := f.tag, depth := f.depth }

/-! ## `json.Marshal` -/

/-- Errors returned by `json.Marshal`. -/
inductive MarshalError where
  /-- `*json.UnsupportedValueError`: a NaN or an infinity. -/
  | unsupportedValue
  /-- `*json.UnsupportedTypeError`. -/
  | unsupportedType
  /-- `*json.MarshalerError` wrapping the error of `Time.MarshalJSON`. -/
  | marshaler
  deriving DecidableEq, Repr

/-- Function `isEmptyValue`: what `omitempty` omits, "false, 0, a nil pointer, a nil interface
value, and any empty array, slice, map, or string".  A float is compared with `== 0`, so `-0`
is empty.  A struct (`time.Time`) is never empty. -/
def isEmptyLeaf : Leaf → Bool
  | .float64 f => f.isZero
  | .int i => i.val == 0
  | .int64 i => i.val == 0
  | .string s => s == ""
  | .bool b => !b
  | .time _ => false
  | .stringSlice xs => (xs.getD []).isEmpty
  | .float64Slice xs => (xs.getD []).isEmpty
  | .iface d => d.isNone
  | .stringMap m => (m.getD []).isEmpty

/-- Method `Time.MarshalJSON`. -/
def Time.MarshalJSON (t : Time) : Except MarshalError Tok :=
  if t.marshalable then .ok (.time t.sec t.nsec t.offset) else .error .marshaler

/-- Insertion of an entry into a list sorted by key; an entry with the same key is replaced. -/
def insertEntry (e : String × String) : List (String × String) → List (String × String)
  | [] => [e]
  | x :: xs =>
    if e.1 < x.1 then e :: x :: xs
    else if e.1 = x.1 then e :: xs
    else x :: insertEntry e xs

/-- Members of the object written for a map: one per key, sorted by key. -/
def sortedEntries (entries : List (String × String)) : List (String × String) :=
  entries.foldr insertEntry []

/-- Encoding of a leaf value. -/
def encodeLeaf : Leaf → Except MarshalError Tok
  | .float64 f => if f.isNaNOrInf then .error .unsupportedValue else .ok (.float f)
  | .int i => .ok (.int i.val)
  | .int64 i => .ok (.int i.val)
  | .string s => .ok (.str s)
  | .bool b => .ok (.bool b)
  | .time t => t.MarshalJSON
  | .stringSlice none => .ok .null
  | .stringSlice (some xs) => .ok (.strs xs)
  | .float64Slice none => .ok .null
  | .float64Slice (some xs) =>
    if xs.any Float64.isNaNOrInf then .error .unsupportedValue else .ok (.floats xs)
  | .iface none => .ok .null
  | .iface (some (.marshals t)) => .ok t
  | .iface (some (.generic t)) => .ok (.regen t)
  | .iface (some .unsupported) => .error .unsupportedType
  | .stringMap none => .ok .null
  | .stringMap (some entries) => .ok (.strMap (sortedEntries entries))

/-- The struct encoder: the fields in order; a field with `omitempty` whose value is empty is
left out; the first error ends the encoding. -/
def marshalMembers {K V W : Type} (isEmpty : V → Bool) (enc : V → Except MarshalError W) :
    List (Field K × V) → Except MarshalError (List (String × W))
  | [] => .ok []
  | (f, v) :: rest =>
    if f.omitEmpty && isEmpty v then marshalMembers isEmpty enc rest
    else
      match enc v with
      | .error e => .error e
      | .ok w =>
        match marshalMembers isEmpty enc rest with
        | .error e => .error e
        | .ok ms => .ok ((f.jsonName, w) :: ms)

/-- The encoded fields of a struct paired with their values in `record` (the field values of
the struct, in declaration order, promoted fields included). -/
def visiblePairs {K V : Type} (fields : List (Field K)) (record : List V) : List (Field K × V) :=
  ((fields.zip record).enum.filter (fun jp => visible fields jp.1 jp.2.1)).map Prod.snd

/-- Encoding of a struct whose fields are leaves. -/
def marshalLeafStruct (fields : List (Field LeafKind)) (record : List Leaf) :
    Except MarshalError (List (String × Tok)) :=
  marshalMembers isEmptyLeaf encodeLeaf (visiblePairs fields record)

/-! ## The struct declarations

Each Go struct is given as a Lean structure (a field without explicit value has the Go zero
value of its type), as the table of its fields with their `json` tags, and as the list of its
field values in declaration order (what `reflect` hands to `encoding/json`). -/

/-- Shorthand for a field declared in the struct itself. -/
def field {K : Type} (goName : String) (kind : K) (tag : String) : Field K :=
  { goName := goName, kind := kind, tag := tag }

/-- Tags of `VendorSpecific`. -/
def VendorSpecific.fields : List (Field LeafKind) :=
  [ field "Data" .stringMap "data",
    field "Keys" .stringSlice "keys" ]

/-- Field values of a `VendorSpecific`. -/
def VendorSpecific.toRecord (v : VendorSpecific) : List Leaf :=
  [ .stringMap v.Data, .stringSlice v.Keys ]

/-- Tags of `Account`. -/
def Account.fields : List (Field LeafKind) :=
  [ field "Id" .string "id",
    field "Broker" .string "broker",
    field "Description" .string "description" ]

/-- Field values of an `Account`. -/
def Account.toRecord (a : Account) : List Leaf :=
  [ .string a.Id, .string a.Broker, .string a.Description ]

/-- Go struct `Quote`. -/
structure Quote where
  High : Float64 := {}
  Low : Float64 := {}
  Open : Float64 := {}
  Close : Float64 := {}
  Mark : Float64 := {}
  Volume : Int64 := Int64.zero
  Bid : Float64 := {}
  BidSize : Int64 := Int64.zero
  BidExch : String := ""
  Ask : Float64 := {}
  AskSize : Int64 := Int64.zero
  AskExch : String := ""
  LastTime : Types.Time := {}
  Last : Float64 := {}
  LastSize : Int64 := Int64.zero
  LastExch : String := ""
  OptionHistoricalVolatility : Float64 := {}
  OptionImpliedVolatility : Float64 := {}
  OptionCallOpenInt : Int64 := Int64.zero
  OptionCallVolume : Int64 := Int64.zero
  OptionPutOpenInt : Int64 := Int64.zero
  OptionPutVolume : Int64 := Int64.zero
  AvgVol : Float64 := {}
  Time : Types.Time := {}
  Incomplete : Bool := false
  deriving DecidableEq, Repr

/-- Tags of `Quote`. -/
def Quote.fields : List (Field LeafKind) :=
  [ field "High" .float64 "high,omitempty",
    field "Low" .float64 "low,omitempty",
    field "Open" .float64 "open,omitempty",
    field "Close" .float64 "close,omitempty",
    field "Mark" .float64 "mark,omitempty",
    field "Volume" .int64 "volume,omitempty",
    field "Bid" .float64 "bid,omitempty",
    field "BidSize" .int64 "bid_size,omitempty",
    field "BidExch" .string "bid_exch,omitempty",
    field "Ask" .float64 "ask,omitempty",
    field "AskSize" .int64 "ask_size,omitempty",
    field "AskExch" .string "ask_exch,omitempty",
    field "LastTime" .time "last_time,omitempty",
    field "Last" .float64 "last,omitempty",
    field "LastSize" .int64 "last_size,omitempty",
    field "LastExch" .string "last_exch,omitempty",
    field "OptionHistoricalVolatility" .float64 "option_hv,omitempty",
    field "OptionImpliedVolatility" .float64 "option_iv,omitempty",
    field "OptionCallOpenInt" .int64 "option_call_open_int,omitempty",
    field "OptionCallVolume" .int64 "option_call_vol,omitempty",
    field "OptionPutOpenInt" .int64 "option_put_open_int,omitempty",
    field "OptionPutVolume" .int64 "option_put_vol,omitempty",
    field "AvgVol" .float64 "avg_vol,omitempty",
    field "Time" .time "time",
    field "Incomplete" .bool "incomplete,omitempty" ]

/-- Field values of a `Quote`. -/
def Quote.toRecord (q : Quote) : List Leaf :=
  [ .float64 q.High, .float64 q.Low, .float64 q.Open, .float64 q.Close, .float64 q.Mark,
    .int64 q.Volume,
    .float64 q.Bid, .int64 q.BidSize, .string q.BidExch,
    .float64 q.Ask, .int64 q.AskSize, .string q.AskExch,
    .time q.LastTime, .float64 q.Last, .int64 q.LastSize, .string q.LastExch,
    .float64 q.OptionHistoricalVolatility, .float64 q.OptionImpliedVolatility,
    .int64 q.OptionCallOpenInt, .int64 q.OptionCallVolume,
    .int64 q.OptionPutOpenInt, .int64 q.OptionPutVolume,
    .float64 q.AvgVol,
    .time q.Time, .bool q.Incomplete ]

/-- Go struct `OptionQuote`: the embedded `Quote` and the option's own fields.  The Go field
`Type` is named `Type_` (`Type` is reserved in Lean). -/
structure OptionQuote extends Quote where
  Strike : Float64 := {}
  Underlying : String := ""
  Expiration : String := ""
  Type_ : PutOrCall := {}
  MinPriceDelta : Float64 := {}
  FullSymbol : String := ""
  OpenInterest : Int64 := Int64.zero
  ModelPrice : Float64 := {}
  Delta : Float64 := {}
  Gamma : Float64 := {}
  Theta : Float64 := {}
  Vega : Float64 := {}
  Rho : Float64 := {}
  deriving DecidableEq, Repr

/-- Tags of the fields declared in `OptionQuote` itself. -/
def OptionQuote.ownFields : List (Field LeafKind) :=
  [ field "Strike" .float64 "strike",
    field "Underlying" .string "underlying",
    field "Expiration" .string "expiration",
    field "Type" .string "type",
    field "MinPriceDelta" .float64 "min_price_delta",
    field "FullSymbol" .string "full_symbol",
    field "OpenInterest" .int64 "open_interest",
    field "ModelPrice" .float64 "model_price",
    field "Delta" .float64 "delta",
    field "Gamma" .float64 "gamma",
    field "Theta" .float64 "theta",
    field "Vega" .float64 "vega",
    field "Rho" .float64 "rho" ]

/-- Candidate fields of `OptionQuote` for `encoding/json`: the embedded `Quote` is the first
field, anonymous and untagged, so its fields are promoted (depth 1); the own fields follow. -/
def OptionQuote.fields : List (Field LeafKind) :=
  promote Quote.fields ++ OptionQuote.ownFields

/-- Field values of an `OptionQuote`, promoted fields first. -/
def OptionQuote.toRecord (o : OptionQuote) : List Leaf :=
  o.toQuote.toRecord ++
  [ .float64 o.Strike, .string o.Underlying, .string o.Expiration, .string o.Type_.val,
    .float64 o.MinPriceDelta, .string o.FullSymbol, .int64 o.OpenInterest,
    .float64 o.ModelPrice, .float64 o.Delta, .float64 o.Gamma, .float64 o.Theta,
    .float64 o.Vega, .float64 o.Rho ]

/-- Go struct `OptionChain`. -/
structure OptionChain where
  Underlying : String := ""
  Multiplier : String := ""
  Exchanges : StringSlice := none
  Strikes : Option (List Float64) := none
  Expirations : StringSlice := none
  deriving DecidableEq, Repr

/-- Tags of `OptionChain`. -/
def OptionChain.fields : List (Field LeafKind) :=
  [ field "Underlying" .string "underlying",
    field "Multiplier" .string "multiplier,omitempty",
    field "Exchanges" .stringSlice "exchanges,omitempty",
    field "Strikes" .float64Slice "strikes",
    field "Expirations" .stringSlice "expirations" ]

/-- Field values of an `OptionChain`. -/
def OptionChain.toRecord (c : OptionChain) : List Leaf :=
  [ .string c.Underlying, .string c.Multiplier, .stringSlice c.Exchanges,
    .float64Slice c.Strikes, .stringSlice c.Expirations ]

/-- Go struct `Option` (named `OptionContract` here, `Option` being a Lean type): the identity
of one option contract.  Its fields have no tags. -/
structure OptionContract where
  Underlying : String := ""
  Strike : Float64 := {}
  Expiration : String := ""
  Type_ : PutOrCall := {}
  deriving DecidableEq, Repr

/-- Fields of `Option`; without tags the JSON names are the Go names. -/
def OptionContract.fields : List (Field LeafKind) :=
  [ field "Underlying" .string "",
    field "Strike" .float64 "",
    field "Expiration" .string "",
    field "Type" .string "" ]

/-- Field values of an `Option`. -/
def OptionContract.toRecord (o : OptionContract) : List Leaf :=
  [ .string o.Underlying, .float64 o.Strike, .string o.Expiration, .string o.Type_.val ]

/-- Go struct `Execution`. -/
structure Execution where
  ExecutionId : String := ""
  OptionType : String := ""
  Strike : Float64 := {}
  Expiration : String := ""
  Multiplier : Int64 := Int64.zero
  Exchange : String := ""
  Size : Int64 := Int64.zero
  Price : Float64 := {}
  Commissions : Float64 := {}
  RealizedPnL : Float64 := {}
  Time : Types.Time := {}
  RawData : Option Dyn := none
  deriving DecidableEq, Repr

/-- Tags of `Execution`. -/
def Execution.fields : List (Field LeafKind) :=
  [ field "ExecutionId" .string "id",
    field "OptionType" .string "type,omitempty",
    field "Strike" .float64 "strike,omitempty",
    field "Expiration" .string "expiration,omitempty",
    field "Multiplier" .int "multiplier,omitempty",
    field "Exchange" .string "exchange",
    field "Size" .int "size",
    field "Price" .float64 "price",
    field "Commissions" .float64 "commissions",
    field "RealizedPnL" .float64 "realized_pnl,omitempty",
    field "Time" .time "time",
    field "RawData" .iface "raw_data,omitempty" ]

/-- Field values of an `Execution`. -/
def Execution.toRecord (e : Execution) : List Leaf :=
  [ .string e.ExecutionId, .string e.OptionType, .float64 e.Strike, .string e.Expiration,
    .int e.Multiplier, .string e.Exchange, .int e.Size, .float64 e.Price,
    .float64 e.Commissions, .float64 e.RealizedPnL, .time e.Time, .iface e.RawData ]

/-- Go struct `Trade`.  An element of `Executions` is `none` for a nil pointer. -/
structure Trade where
  Account : String := ""
  Broker : String := ""
  OrderId : String := ""
  Symbol : String := ""
  Size : Int64 := Int64.zero
  Price : Float64 := {}
  Executions : Option (List (Option Execution)) := none
  Time : Types.Time := {}
  RawData : Option Dyn := none
  deriving DecidableEq, Repr

/-- Tags of `Trade`. -/
def Trade.fields : List (Field Kind) :=
  [ field "Account" (.leaf .string) "account",
    field "Broker" (.leaf .string) "broker",
    field "OrderId" (.leaf .string) "id",
    field "Symbol" (.leaf .string) "symbol",
    field "Size" (.leaf .int) "size",
    field "Price" (.leaf .float64) "price",
    field "Executions" .execs "executions",
    field "Time" (.leaf .time) "time",
    field "RawData" (.leaf .iface) "raw_data,omitempty" ]

/-- Field values of a `Trade`. -/
def Trade.toRecord (t : Trade) : List Value :=
  [ .leaf (.string t.Account), .leaf (.string t.Broker), .leaf (.string t.OrderId),
    .leaf (.string t.Symbol), .leaf (.int t.Size), .leaf (.float64 t.Price),
    .execs (t.Executions.map (fun xs => xs.map (fun x => x.map Execution.toRecord))),
    .leaf (.time t.Time), .leaf (.iface t.RawData) ]

/-! ## Encoding of struct values -/

/-- Encoding of the elements of a `[]*Execution`: `null` for a nil pointer, the object of the
`Execution` otherwise. -/
def encodeExecs : List (Option (List Leaf)) →
    Except MarshalError (List (Option (List (String × Tok))))
  | [] => .ok []
  | none :: rest =>
    match encodeExecs rest with
    | .error e => .error e
    | .ok os => .ok (none :: os)
  | some r :: rest =>
    match marshalLeafStruct Execution.fields r with
    | .error e => .error e
    | .ok ms =>
      match encodeExecs rest with
      | .error e => .error e
      | .ok os => .ok (some ms :: os)

/-- Function `isEmptyValue` on field values. -/
def isEmptyValue : Value → Bool
  | .leaf l => isEmptyLeaf l
  | .execs xs => (xs.getD []).isEmpty

/-- Encoding of a field value. -/
def encodeValue : Value → Except MarshalError JSON
  | .leaf l =>
    match encodeLeaf l with
    | .error e => .error e
    | .ok t => .ok (.tok t)
  | .execs none => .ok (.tok .null)
  | .execs (some xs) =>
    match encodeExecs xs with
    | .error e => .error e
    | .ok os => .ok (.objects os)

/-- Function `json.Marshal` on a struct with the given fields and field values: the members
of the JSON object, in order, or the error. -/
def Marshal (fields : List (Field Kind)) (record : List Value) :
    Except MarshalError (List (String × JSON)) :=
  marshalMembers isEmptyValue encodeValue (visiblePairs fields record)

/-! ## `json.Unmarshal` -/

/-- Errors that `json.Unmarshal` saves while it goes on decoding. -/
inductive UnmarshalError where
  /-- `*json.UnmarshalTypeError`: the JSON value does not fit the Go type. -/
  | type
  /-- Error returned by `Time.UnmarshalJSON`. -/
  | unmarshaler
  deriving DecidableEq, Repr

/-- Outcome of decoding one JSON value into one destination: `done v err` stores `v` (or leaves
the destination as it is for `none`) and saves `err`; `unmodelled` marks a combination of JSON
value and destination that the token model cannot express (a number token of one Go kind read
into a field of another, a time text read into a string, an uninterpreted text). -/
inductive Step (V : Type) where
  | done (v : Option V) (err : Option UnmarshalError)
  | unmodelled
  deriving DecidableEq, Repr

/-- Method `Time.UnmarshalJSON` on the text of an instant: the monotonic reading is gone, and
offset zero is read as UTC. -/
def Time.ofRFC3339 (sec : Int) (nsec : Nat) (offset : Int) : Time :=
  { sec := sec, nsec := nsec, mono := none, zone := if offset = 0 then none else some offset }

/-- Entries of a map destination that decoding an object keeps. -/
def Leaf.mapEntries : Leaf → List (String × String)
  | .stringMap (some entries) => entries
  | _ => []

/-- Least magnitude of an integer literal that `strconv.ParseFloat` rounds to an infinity
(half way between the largest `float64` and `2 ^ 1024`). -/
def float64Overflow : Nat := 2 ^ 1024 - 2 ^ 970

/-- Decoding of a token into an empty interface (`interface{}`).  `null` stores nil.  A number
is converted to `float64`; when it is out of range the destination is left as it is and an
`UnmarshalTypeError` is saved.  An object or array is stored as a generic value; a number out
of range inside it is stored as nil and the error is saved.  Anything else is stored as a
generic value. -/
def decodeIface (t : Tok) : Step Leaf :=
  match t with
  | .null => .done (some (.iface none)) none
  | .int i =>
    if i.natAbs < float64Overflow then .done (some (.iface (some (.generic t)))) none
    else .done none (some .type)
  | .number _ fits =>
    if fits then .done (some (.iface (some (.generic t)))) none else .done none (some .type)
  | .raw _ fits => .done (some (.iface (some (.generic t)))) (if fits then none else some .type)
  | t => .done (some (.iface (some (.generic t)))) none

/-- Decoding of a token into a destination of a leaf kind holding `old`. -/
def decodeLeaf (k : LeafKind) (t : Tok) (old : Leaf) : Step Leaf :=
  match k, t with
  | .iface, t => decodeIface t
  | _, .number _ _ => .unmodelled
  | _, .raw _ _ => .unmodelled
  | _, .regen _ => .unmodelled
  | .stringSlice, .null => .done (some (.stringSlice none)) none
  | .float64Slice, .null => .done (some (.float64Slice none)) none
  | .stringMap, .null => .done (some (.stringMap none)) none
  | _, .null => .done none none
  | .float64, .float f => .done (some (.float64 f)) none
  | .float64, .int _ => .unmodelled
  | .float64, _ => .done none (some .type)
  | .int, .int i =>
    match Int64.ofInt? i with
    | some x => .done (some (.int x)) none
    | none => .done none (some .type)
  | .int, .float _ => .unmodelled
  | .int, _ => .done none (some .type)
  | .int64, .int i =>
    match Int64.ofInt? i with
    | some x => .done (some (.int64 x)) none
    | none => .done none (some .type)
  | .int64, .float _ => .unmodelled
  | .int64, _ => .done none (some .type)
  | .string, .str s => .done (some (.string s)) none
  | .string, .time _ _ _ => .unmodelled
  | .string, _ => .done none (some .type)
  | .bool, .bool b => .done (some (.bool b)) none
  | .bool, _ => .done none (some .type)
  | .time, .time sec nsec offset => .done (some (.time (Time.ofRFC3339 sec nsec offset))) none
  | .time, .str _ => .unmodelled
  | .time, _ => .done none (some .unmarshaler)
  | .stringSlice, .strs xs => .done (some (.stringSlice (some xs))) none
  | .stringSlice, .floats [] => .done (some (.stringSlice (some []))) none
  | .stringSlice, .floats _ => .unmodelled
  | .stringSlice, _ => .done none (some .type)
  | .float64Slice, .floats xs => .done (some (.float64Slice (some xs))) none
  | .float64Slice, .strs [] => .done (some (.float64Slice (some []))) none
  | .float64Slice, .strs _ => .unmodelled
  | .float64Slice, _ => .done none (some .type)
  | .stringMap, .strMap entries => .done (some (.stringMap (some (entries ++ old.mapEntries)))) none
  | .stringMap, _ => .done none (some .type)

/-- Upper-case letters of ASCII folded to lower case, for the case-insensitive key match. -/
def foldName (s : String) : List Char := s.data.map Char.toLower

/-- The field a member key is decoded into: the encoded field with exactly that JSON name,
otherwise the first one whose name matches case-insensitively; `none` when there is none (the
member is ignored). -/
def findField {K : Type} (fields : List (Field K)) (key : String) : Option Nat :=
  match (typeFields fields).find? (fun jf => jf.2.jsonName == key) with
  | some jf => some jf.1
  | none =>
    ((typeFields fields).find? (fun jf => foldName jf.2.jsonName == foldName key)).map Prod.fst

/-- The struct decoder: the members in order, each decoded into its field of `dst`; the first
error is kept and decoding goes on.  `none`: a member left the token model, or `dst` does not
have the fields of the struct. -/
def unmarshalMembers {K V W : Type} (fields : List (Field K)) (dec : K → W → V → Step V) :
    List (String × W) → List V → Option UnmarshalError → Option (List V × Option UnmarshalError)
  | [], dst, err => some (dst, err)
  | (key, w) :: rest, dst, err =>
    match findField fields key with
    | none => unmarshalMembers fields dec rest dst err
    | some i =>
      match fields[i]?, dst[i]? with
      | some f, some old =>
        match dec f.kind w old with
        | .done (some v) e => unmarshalMembers fields dec rest (dst.set i v) (err <|> e)
        | .done none e => unmarshalMembers fields dec rest dst (err <|> e)
        | .unmodelled => none
      | _, _ => none

/-- Decoding of an object into a struct whose fields are leaves. -/
def unmarshalLeafStruct (fields : List (Field LeafKind)) (obj : List (String × Tok))
    (dst : List Leaf) : Option (List Leaf × Option UnmarshalError) :=
  unmarshalMembers fields decodeLeaf obj dst none

/-- Decoding of the elements of an array into a fresh `[]*Execution`: `null` gives a nil
pointer, an object is decoded into a new zero `Execution`. -/
def decodeExecs : List (Option (List (String × Tok))) →
    Option (List (Option (List Leaf)) × Option UnmarshalError)
  | [] => some ([], none)
  | none :: rest =>
    match decodeExecs rest with
    | some (rs, e) => some (none :: rs, e)
    | none => none
  | some obj :: rest =>
    match unmarshalLeafStruct Execution.fields obj ({} : Execution).toRecord, decodeExecs rest with
    | some (r, e₁), some (rs, e₂) => some (some r :: rs, e₁ <|> e₂)
    | _, _ => none

/-- Decoding of a JSON value into a destination of the given kind holding `old`.  Decoding a
non-empty array of objects into a slice that is not nil is not modelled (the decoder reuses the
elements of its backing array).  A destination whose value is not of the kind is `unmodelled`
as well. -/
def decodeValue (k : Kind) (j : JSON) (old : Value) : Step Value :=
  match k, j, old with
  | .leaf k, .tok t, .leaf o =>
    match decodeLeaf k t o with
    | .done v e => .done (v.map Value.leaf) e
    | .unmodelled => .unmodelled
  | .leaf .stringSlice, .objects [], .leaf _ => .done (some (.leaf (.stringSlice (some [])))) none
  | .leaf .float64Slice, .objects [], .leaf _ =>
    .done (some (.leaf (.float64Slice (some [])))) none
  | .leaf .stringSlice, .objects _, .leaf _ => .unmodelled
  | .leaf .float64Slice, .objects _, .leaf _ => .unmodelled
  | .leaf .iface, .objects _, .leaf _ => .unmodelled
  | .leaf _, .objects _, .leaf _ => .done none (some .type)
  | .execs, .tok .null, .execs _ => .done (some (.execs none)) none
  | .execs, .tok (.strs []), .execs _ => .done (some (.execs (some []))) none
  | .execs, .tok (.floats []), .execs _ => .done (some (.execs (some []))) none
  | .execs, .tok (.strs _), .execs _ => .unmodelled
  | .execs, .tok (.floats _), .execs _ => .unmodelled
  | .execs, .tok (.raw _ _), .execs _ => .unmodelled
  | .execs, .tok (.regen _), .execs _ => .unmodelled
  | .execs, .tok _, .execs _ => .done none (some .type)
  | .execs, .objects [], .execs _ => .done (some (.execs (some []))) none
  | .execs, .objects xs, .execs none =>
    match decodeExecs xs with
    | some (rs, e) => .done (some (.execs (some rs))) e
    | none => .unmodelled
  | _, _, _ => .unmodelled

/-- Function `json.Unmarshal` of the object with members `obj` into a struct with the given
fields that holds the field values `dst`: the field values afterwards and the error returned. -/
def Unmarshal (fields : List (Field Kind)) (obj : List (String × JSON)) (dst : List Value) :
    Option (List Value × Option UnmarshalError) :=
  unmarshalMembers fields decodeValue obj dst none

/-! ## The entities that are exchanged as JSON -/

/-- A value of one of the five structs that carry `omitempty` fields. -/
inductive Entity where
  | quote (q : Quote)
  | optionQuote (o : OptionQuote)
  | execution (e : Execution)
  | trade (t : Trade)
  | optionChain (c : OptionChain)
  deriving DecidableEq, Repr

/-- Fields of the struct of an entity. -/
def Entity.fields : Entity → List (Field Kind)
  | .quote _ => Quote.fields.map Field.lift
  | .optionQuote _ => OptionQuote.fields.map Field.lift
  | .execution _ => Execution.fields.map Field.lift
  | .trade _ => Trade.fields
  | .optionChain _ => OptionChain.fields.map Field.lift

/-- Field values of an entity. -/
def Entity.record : Entity → List Value
  | .quote q => q.toRecord.map Value.leaf
  | .optionQuote o => o.toRecord.map Value.leaf
  | .execution e => e.toRecord.map Value.leaf
  | .trade t => t.toRecord
  | .optionChain c => c.toRecord.map Value.leaf

/-- A fresh value of the struct of an entity: every field has its zero value. -/
def Entity.fresh : Entity → Entity
  | .quote _ => .quote {}
  | .optionQuote _ => .optionQuote {}
  | .execution _ => .execution {}
  | .trade _ => .trade {}
  | .optionChain _ => .optionChain {}

/-- Call `json.Marshal(e)`. -/
def Entity.Marshal (e : Entity) : Except MarshalError (List (String × JSON)) :=
  Types.Marshal e.fields e.record

/-- Call `json.Unmarshal(data, &v)` for a fresh `v` of the struct of `e`, where `data` is the
object with members `obj`. -/
def Entity.Unmarshal (e : Entity) (obj : List (String × JSON)) :
    Option (List Value × Option UnmarshalError) :=
  Types.Unmarshal e.fields obj e.fresh.record

/-! ## Auxiliary notions for the proofs -/

/-- A table none of whose fields is skipped and whose JSON names are pairwise distinct. -/
def GoodTable {K : Type} (fields : List (Field K)) : Prop :=
  (∀ f ∈ fields, f.skipped = false) ∧ (fields.map Field.jsonName).Nodup

/-- The member is decoded into a field of the struct, given what `dst` holds in that field:
the decoder is within the token model there, and what it stores is of the field's kind. -/
def DecodesAt {K V W : Type} (fields : List (Field K)) (dec : K → W → V → Step V)
    (kindOf : V → K) (dst : List V) (m : String × W) : Prop :=
  ∃ i f old r e, findField fields m.1 = some i ∧ fields[i]? = some f ∧ dst[i]? = some old ∧
    dec f.kind m.2 old = .done r e ∧ kindOf (r.getD old) = f.kind

/-- Whether `json.Unmarshal` of the token into an `interface{}` reports no error. -/
def Tok.decodable (t : Tok) : Bool :=
  match decodeIface t with
  | .done _ e => e.isNone
  | .unmodelled => true

/-- Whether what `json.Marshal` writes for the value is read back by `json.Unmarshal` without
error: every value but a dynamic one whose JSON holds a number out of the `float64` range. -/
def Leaf.decodable : Leaf → Bool
  | .iface (some (.marshals t)) => t.decodable
  | _ => true

/-- Whether every part of the field value is read back without error. -/
def Value.decodable : Value → Bool
  | .leaf l => l.decodable
  | .execs xs => (xs.getD []).all (fun o => (o.getD []).all Leaf.decodable)

/-- Whether the value read back is written again as it was written first: every value but a
dynamic one (read back as a generic value, a typed nil as nil) and a map. -/
def Leaf.stable : Leaf → Bool
  | .iface (some _) => false
  | .stringMap (some _) => false
  | _ => true

/-- Whether every part of the field value is written again as it was written first. -/
def Value.stable : Value → Bool
  | .leaf l => l.stable
  | .execs xs => (xs.getD []).all (fun o => (o.getD []).all Leaf.stable)

/-- Whether the value read back is the value itself: a stable value; for a time, one without
monotonic reading whose zone is UTC or has a non-zero offset. -/
def Leaf.exact : Leaf → Bool
  | .time t => t.mono.isNone && t.zone != some 0
  | l => l.stable

/-- Whether the field value read back is the value itself; for a `[]*Execution` this is
stated for a slice without elements only. -/
def Value.exact : Value → Bool
  | .leaf l => l.exact
  | .execs xs => (xs.getD []).isEmpty

/-- The elements of a `[]*Execution` have the fields of `Execution` (true of every Go value
of that type). -/
def Value.WellFormed : Value → Prop
  | .leaf _ => True
  | .execs none => True
  | .execs (some xs) => ∀ r, some r ∈ xs → r.map Leaf.kind = Execution.fields.map Field.kind

/-! ## Sample values -/

/-- The `float64` value `1`. -/
def Float64.one : Float64 := { sign := false, exponent := 1023, mantissa := 0 }

/-- A quiet NaN. -/
def Float64.nan : Float64 := { sign := false, exponent := 2047, mantissa := 2251799813685248 }

/-- The account of the specification's example: `Account{"U1", "broker-x", "desc"}`. -/
def sampleAccount : Account := { Id := "U1", Broker := "broker-x", Description := "desc" }

/-- The vendor data of the specification's example:
`VendorSpecific{Data: {"a": "1"}, Keys: ["a", "b"]}`. -/
def sampleVendor : VendorSpecific := { Data := some [("a", "1")], Keys := some ["a", "b"] }

/-- A closing fill of five contracts with a realized profit. -/
def sampleExecution : Execution :=
  { ExecutionId := "e1", Exchange := "X", Size := ⟨5, by decide⟩, Price := Float64.one,
    RealizedPnL := Float64.one }

/-- A chain whose `Exchanges` is an empty slice that is not nil (`[]string{}`). -/
def emptyExchangesChain : OptionChain := { Underlying := "ABC", Exchanges := some [] }

/-- A quote whose `High` is a NaN. -/
def nanQuote : Quote := { High := Float64.nan }

/-- A fill whose `RawData` holds `json.Number("1e400")`, written as the number `1e400`. -/
def bigNumberExecution : Execution :=
  { ExecutionId := "e2", RawData := some (.marshals (.number "1e400" false)) }

/-- A fill whose `RawData` holds a typed nil pointer, written as `null`. -/
def typedNilExecution : Execution :=
  { ExecutionId := "e3", RawData := some (.marshals .null) }

/-- A partially filled order: ten ordered, one fill of five. -/
def sampleTrade : Trade :=
  { Account := "U1", Broker := "broker-x", OrderId := "o1", Symbol := "ABC",
    Size := ⟨10, by decide⟩, Price := Float64.one, Executions := some [some sampleExecution] }


/-! ## Tables with distinct names -/

theorem jsonName_inj {K : Type} {fields : List (Field K)}
    (h : (fields.map Field.jsonName).Nodup) {i j : Nat} {f g : Field K}
    (hi : fields[i]? = some f) (hj : fields[j]? = some g)
    (hn : f.jsonName = g.jsonName) : i = j := by
  have hi2 : (fields.map Field.jsonName)[i]? = some f.jsonName := by simp [hi]
  have hj2 : (fields.map Field.jsonName)[j]? = some f.jsonName := by simp [hj, hn]
  have hlt : i < (fields.map Field.jsonName).length := by
    rcases List.getElem?_eq_some.1 hi2 with ⟨hlt, _⟩
    exact hlt
  exact List.getElem?_inj hlt h (hi2.trans hj2.symm)

theorem visible_of_good {K : Type} {fields : List (Field K)} (h : GoodTable fields)
    {i : Nat} {f : Field K} (hf : fields[i]? = some f) : visible fields i f = true := by
  unfold visible
  simp only [Bool.and_eq_true, Bool.not_eq_true', List.all_eq_true]
  refine ⟨h.1 f (List.getElem?_mem hf), ?_⟩
  intro jg hjg
  rw [List.mem_enum_iff_getElem?] at hjg
  by_cases hij : jg.1 = i
  · simp [hij]
  · have hne : jg.2.jsonName ≠ f.jsonName := fun hn => hij (jsonName_inj h.2 hjg hf hn)
    simp [hne]

theorem typeFields_of_good {K : Type} {fields : List (Field K)} (h : GoodTable fields) :
    typeFields fields = fields.enum := by
  unfold typeFields
  rw [List.filter_eq_self]
  intro jf hjf
  exact visible_of_good h (List.mem_enum_iff_getElem?.1 hjf)

theorem visiblePairs_of_good {K V : Type} {fields : List (Field K)} (h : GoodTable fields)
    (record : List V) : visiblePairs fields record = fields.zip record := by
  unfold visiblePairs
  have : (fields.zip record).enum.filter (fun jp => visible fields jp.1 jp.2.1)
      = (fields.zip record).enum := by
    rw [List.filter_eq_self]
    intro jp hjp
    have h1 := List.mem_enum_iff_getElem?.1 hjp
    have h2 : fields[jp.1]? = some jp.2.1 := by
      rw [List.getElem?_zip_eq_some] at h1
      exact h1.1
    exact visible_of_good h h2
  rw [this, List.enum_map_snd]

theorem findField_of_good {K : Type} {fields : List (Field K)} (h : GoodTable fields)
    {i : Nat} {f : Field K} (hf : fields[i]? = some f) :
    findField fields f.jsonName = some i := by
  unfold findField
  rw [typeFields_of_good h]
  cases hfind : fields.enum.find? (fun jf => jf.2.jsonName == f.jsonName) with
  | none =>
    rw [List.find?_eq_none] at hfind
    have := hfind (i, f) (List.mem_enum_iff_getElem?.2 hf)
    simp at this
  | some jf =>
    have hp := List.find?_some hfind
    have hm := List.mem_enum_iff_getElem?.1 (List.mem_of_find?_eq_some hfind)
    simp only [beq_iff_eq] at hp
    simp only [Option.some.injEq]
    exact jsonName_inj h.2 hm hf hp

/-! ## Properties of the struct encoder -/

section Encoder

variable {K V W : Type} {isEmpty : V → Bool} {enc : V → Except MarshalError W}

theorem marshalMembers_cons_ok {f : Field K} {v : V} {rest : List (Field K × V)}
    {ms : List (String × W)}
    (h : marshalMembers isEmpty enc ((f, v) :: rest) = .ok ms) :
    ((f.omitEmpty && isEmpty v) = true ∧ marshalMembers isEmpty enc rest = .ok ms) ∨
    ((f.omitEmpty && isEmpty v) = false ∧
      ∃ w ms', enc v = .ok w ∧ marshalMembers isEmpty enc rest = .ok ms' ∧
        ms = (f.jsonName, w) :: ms') := by
  rw [marshalMembers] at h
  by_cases hom : (f.omitEmpty && isEmpty v) = true
  · rw [if_pos hom] at h
    exact Or.inl ⟨hom, h⟩
  · rw [if_neg hom] at h
    right
    refine ⟨by simpa using hom, ?_⟩
    cases hv : enc v with
    | error e => rw [hv] at h; cases h
    | ok w =>
      rw [hv] at h
      cases hr : marshalMembers isEmpty enc rest with
      | error e => rw [hr] at h; cases h
      | ok ms' =>
        rw [hr] at h
        simp only [Except.ok.injEq] at h
        exact ⟨w, ms', rfl, rfl, h.symm⟩

theorem marshalMembers_mem {ps : List (Field K × V)} {ms : List (String × W)}
    (h : marshalMembers isEmpty enc ps = .ok ms) {m : String × W} (hm : m ∈ ms) :
    ∃ p ∈ ps, m.1 = p.1.jsonName ∧ (p.1.omitEmpty && isEmpty p.2) = false ∧
      enc p.2 = .ok m.2 := by
  induction ps generalizing ms with
  | nil =>
    simp only [marshalMembers, Except.ok.injEq] at h
    subst h
    cases hm
  | cons p rest ih =>
    obtain ⟨f, v⟩ := p
    rcases marshalMembers_cons_ok h with ⟨_, hr⟩ | ⟨hno, w, ms', hw, hr, rfl⟩
    · obtain ⟨p, hp, hrest⟩ := ih hr hm
      exact ⟨p, List.mem_cons_of_mem _ hp, hrest⟩
    · rcases List.mem_cons.1 hm with rfl | hm'
      · exact ⟨(f, v), List.mem_cons_self _ _, rfl, hno, hw⟩
      · obtain ⟨p, hp, hrest⟩ := ih hr hm'
        exact ⟨p, List.mem_cons_of_mem _ hp, hrest⟩

theorem marshalMembers_split {ps : List (Field K × V)} {ms : List (String × W)}
    (hnd : (ps.map (fun p => p.1.jsonName)).Nodup)
    (h : marshalMembers isEmpty enc ps = .ok ms) {p : Field K × V} (hp : p ∈ ps)
    (hno : (p.1.omitEmpty && isEmpty p.2) = false) :
    ∃ w ms₁ ms₂, enc p.2 = .ok w ∧ ms = ms₁ ++ (p.1.jsonName, w) :: ms₂ ∧
      ∀ m ∈ ms₁ ++ ms₂, m.1 ≠ p.1.jsonName := by
  induction ps generalizing ms with
  | nil => cases hp
  | cons q rest ih =>
    obtain ⟨f, v⟩ := q
    simp only [List.map_cons, List.nodup_cons, List.mem_map, not_exists, not_and] at hnd
    rcases List.mem_cons.1 hp with rfl | hp'
    · rcases marshalMembers_cons_ok h with ⟨hom, _⟩ | ⟨_, w, ms', hw, hr, rfl⟩
      · simp only at hno
        rw [hno] at hom
        cases hom
      · refine ⟨w, [], ms', hw, rfl, ?_⟩
        intro m hm hname
        obtain ⟨q, hq, hq1, _⟩ := marshalMembers_mem hr (by simpa using hm)
        exact hnd.1 q hq (hq1.symm.trans hname)
    · have hpname : p.1.jsonName ≠ f.jsonName := fun e => hnd.1 p hp' e
      rcases marshalMembers_cons_ok h with ⟨_, hr⟩ | ⟨_, w, ms', _, hr, rfl⟩
      · exact ih hnd.2 hr hp'
      · obtain ⟨w', ms₁, ms₂, hw', rfl, hne⟩ := ih hnd.2 hr hp'
        refine ⟨w', (f.jsonName, w) :: ms₁, ms₂, hw', rfl, ?_⟩
        intro m hm
        have hm2 : m = (f.jsonName, w) ∨ m ∈ ms₁ ++ ms₂ := by simpa using hm
        rcases hm2 with rfl | hm'
        · exact fun e => hpname e.symm
        · exact hne m hm'

theorem marshalMembers_lookup_omitted {ps : List (Field K × V)} {ms : List (String × W)}
    (hnd : (ps.map (fun p => p.1.jsonName)).Nodup)
    (h : marshalMembers isEmpty enc ps = .ok ms) {p : Field K × V} (hp : p ∈ ps)
    (hom : (p.1.omitEmpty && isEmpty p.2) = true) :
    ms.lookup p.1.jsonName = none := by
  rw [List.lookup_eq_none_iff]
  intro m hm
  rw [bne_iff_ne]
  intro hname
  obtain ⟨q, hq, hq1, hq2, _⟩ := marshalMembers_mem h hm
  have hname' : q.1.jsonName = p.1.jsonName := by
    rw [← hq1]; exact hname.symm
  have hqp : q = p := by
    rcases List.mem_iff_getElem?.1 hq with ⟨i, hi⟩
    rcases List.mem_iff_getElem?.1 hp with ⟨j, hj⟩
    have hi2 : (ps.map (fun p => p.1.jsonName))[i]? = some p.1.jsonName := by
      simp [hi, hname']
    have hj2 : (ps.map (fun p => p.1.jsonName))[j]? = some p.1.jsonName := by simp [hj]
    have hlt : i < (ps.map (fun p => p.1.jsonName)).length :=
      (List.getElem?_eq_some.1 hi2).1
    have hij := List.getElem?_inj hlt hnd (hi2.trans hj2.symm)
    subst hij
    rw [hi] at hj
    exact Option.some.inj hj
  subst hqp
  rw [hom] at hq2
  cases hq2

theorem marshalMembers_lookup_present {ps : List (Field K × V)} {ms : List (String × W)}
    (hnd : (ps.map (fun p => p.1.jsonName)).Nodup)
    (h : marshalMembers isEmpty enc ps = .ok ms) {p : Field K × V} (hp : p ∈ ps)
    (hno : (p.1.omitEmpty && isEmpty p.2) = false) :
    ∃ w, enc p.2 = .ok w ∧ ms.lookup p.1.jsonName = some w := by
  obtain ⟨w, ms₁, ms₂, hw, rfl, hne⟩ := marshalMembers_split hnd h hp hno
  refine ⟨w, hw, ?_⟩
  rw [List.lookup_append]
  have h1 : ms₁.lookup p.1.jsonName = none := by
    rw [List.lookup_eq_none_iff]
    intro m hm
    rw [bne_iff_ne]
    exact fun hname => hne m (List.mem_append_left _ hm) hname.symm
  rw [h1]
  simp

end Encoder

/-! ## Properties of the struct decoder -/

section Decoder

variable {K V W : Type} {fields : List (Field K)} {dec : K → W → V → Step V} {kindOf : V → K}

theorem conforms_set {dst : List V} (hc : dst.map kindOf = fields.map Field.kind)
    {i : Nat} {f : Field K} (hf : fields[i]? = some f) {v : V} (hv : kindOf v = f.kind) :
    (dst.set i v).map kindOf = fields.map Field.kind := by
  rw [List.map_set, hc, hv]
  apply List.ext_getElem?
  intro j
  by_cases hij : i = j
  · subst hij
    rw [List.getElem?_set]
    simp only [if_true, List.length_map]
    obtain ⟨hlt, hget⟩ := List.getElem?_eq_some.1 hf
    simp [hlt, hget]
  · rw [List.getElem?_set_ne hij]

theorem set_getElem?_self {dst : List V} {i : Nat} {old : V} (h : dst[i]? = some old) :
    dst.set i old = dst := by
  apply List.ext_getElem?
  intro j
  by_cases hij : i = j
  · subst hij
    rw [List.getElem?_set, h]
    have hlt : i < dst.length := (List.getElem?_eq_some.1 h).1
    simp [hlt]
  · rw [List.getElem?_set_ne hij]

theorem unmarshalMembers_cons {m : String × W} {rest : List (String × W)} {dst : List V}
    {err : Option UnmarshalError} {i : Nat} {f : Field K} {old : V} {r : Option V}
    {e : Option UnmarshalError} (hfind : findField fields m.1 = some i)
    (hf : fields[i]? = some f) (hold : dst[i]? = some old)
    (hdec : dec f.kind m.2 old = .done r e) :
    unmarshalMembers fields dec (m :: rest) dst err =
      unmarshalMembers fields dec rest (dst.set i (r.getD old)) (err <|> e) := by
  obtain ⟨k, w⟩ := m
  rw [unmarshalMembers]
  simp only at hfind hdec
  simp only [hfind, hf, hold, hdec]
  cases r with
  | none => simp only [Option.getD_none, set_getElem?_self hold]
  | some v => simp only [Option.getD_some]

theorem unmarshalMembers_spec (ms : List (String × W)) :
    ∀ (dst : List V) (err : Option UnmarshalError),
      dst.map kindOf = fields.map Field.kind →
      ms.Pairwise (fun m m' => findField fields m.1 ≠ findField fields m'.1) →
      (∀ m ∈ ms, DecodesAt fields dec kindOf dst m) →
      ∃ dst' err', unmarshalMembers fields dec ms dst err = some (dst', err') ∧
        dst'.map kindOf = fields.map Field.kind ∧
        ((∀ m ∈ ms, ∀ (i : Nat) (f : Field K) (old : V) (r : Option V)
            (e : Option UnmarshalError), findField fields m.1 = some i →
            fields[i]? = some f → dst[i]? = some old → dec f.kind m.2 old = .done r e →
            e = none) → err' = err) ∧
        ∀ i,
          ((∀ m ∈ ms, findField fields m.1 ≠ some i) → dst'[i]? = dst[i]?) ∧
          (∀ m ∈ ms, findField fields m.1 = some i →
            ∃ f old r e, fields[i]? = some f ∧ dst[i]? = some old ∧
              dec f.kind m.2 old = .done r e ∧ dst'[i]? = some (r.getD old)) := by
  induction ms with
  | nil =>
    intro dst err hc _ _
    refine ⟨dst, err, rfl, hc, fun _ => rfl, fun i => ⟨fun _ => rfl, ?_⟩⟩
    intro m hm
    cases hm
  | cons m₀ rest ih =>
    intro dst err hc hpw hdec
    obtain ⟨hpw₀, hpwr⟩ := List.pairwise_cons.1 hpw
    obtain ⟨i₀, f₀, old₀, r₀, e₀, hfind, hf₀, hold₀, hdec₀, hkv₀⟩ :=
      hdec m₀ (List.mem_cons_self _ _)
    have hc₁ := conforms_set hc hf₀ hkv₀
    have hother : ∀ m ∈ rest, ∀ i, findField fields m.1 = some i → i₀ ≠ i := by
      intro m hm i hfi e
      apply hpw₀ m hm
      rw [hfind, hfi, e]
    have hdec₁ : ∀ m ∈ rest,
        DecodesAt fields dec kindOf (dst.set i₀ (r₀.getD old₀)) m := by
      intro m hm
      obtain ⟨i, f, old, r, e, hfi, hf, hold, hd, hk⟩ := hdec m (List.mem_cons_of_mem _ hm)
      exact ⟨i, f, old, r, e, hfi, hf,
        by rw [List.getElem?_set_ne (hother m hm i hfi)]; exact hold, hd, hk⟩
    obtain ⟨dst', err', hrun, hc', herr, hpt⟩ :=
      ih (dst.set i₀ (r₀.getD old₀)) (err <|> e₀) hc₁ hpwr hdec₁
    refine ⟨dst', err', ?_, hc', ?_, fun i => ⟨?_, ?_⟩⟩
    · rw [unmarshalMembers_cons hfind hf₀ hold₀ hdec₀]
      exact hrun
    · intro hno
      have he₀ : e₀ = none := hno m₀ (List.mem_cons_self _ _) i₀ f₀ old₀ r₀ e₀ hfind hf₀
        hold₀ hdec₀
      rw [herr, he₀]
      · cases err <;> rfl
      · intro m hm i f old r e hfi hf hold hd
        rw [List.getElem?_set_ne (hother m hm i hfi)] at hold
        exact hno m (List.mem_cons_of_mem _ hm) i f old r e hfi hf hold hd
    · intro hnone
      have hne : i₀ ≠ i := fun e => hnone m₀ (List.mem_cons_self _ _) (by rw [hfind, e])
      rw [(hpt i).1 (fun m hm => hnone m (List.mem_cons_of_mem _ hm)), List.getElem?_set_ne hne]
    · intro m hm hres
      rcases List.mem_cons.1 hm with rfl | hm'
      · have hi : i₀ = i := by
          rw [hfind] at hres
          exact Option.some.inj hres
        subst hi
        have hnone : ∀ m' ∈ rest, findField fields m'.1 ≠ some i₀ :=
          fun m' hm' hr => hother m' hm' i₀ hr rfl
        refine ⟨f₀, old₀, r₀, e₀, hf₀, hold₀, hdec₀, ?_⟩
        rw [(hpt i₀).1 hnone, List.getElem?_set]
        have hlt : i₀ < dst.length := (List.getElem?_eq_some.1 hold₀).1
        simp [hlt]
      · obtain ⟨f, old, r, e, hf, hold, hd, hres'⟩ := (hpt i).2 m hm' hres
        rw [List.getElem?_set_ne (hother m hm' i hres)] at hold
        exact ⟨f, old, r, e, hf, hold, hd, hres'⟩

end Decoder

/-! ## Encoding followed by decoding -/

section RoundTrip

variable {K V W : Type} {isEmpty : V → Bool} {enc : V → Except MarshalError W}

theorem zip_fst_sublist (fields : List (Field K)) (record : List V) :
    List.Sublist ((fields.zip record).map Prod.fst) fields := by
  induction fields generalizing record with
  | nil => simp
  | cons f fs ih =>
    cases record with
    | nil => simp
    | cons v vs =>
      simp only [List.zip_cons_cons, List.map_cons]
      exact (ih vs).cons₂ f

theorem zip_names_nodup {fields : List (Field K)} (h : (fields.map Field.jsonName).Nodup)
    (record : List V) : ((fields.zip record).map (fun p => p.1.jsonName)).Nodup := by
  have hs : List.Sublist (((fields.zip record).map Prod.fst).map Field.jsonName)
      (fields.map Field.jsonName) := (zip_fst_sublist fields record).map _
  have := hs.nodup h
  simpa [List.map_map] using this

theorem marshalMembers_keys_sublist {ps : List (Field K × V)} {ms : List (String × W)}
    (h : marshalMembers isEmpty enc ps = .ok ms) :
    List.Sublist (ms.map Prod.fst) (ps.map (fun p => p.1.jsonName)) := by
  induction ps generalizing ms with
  | nil =>
    simp only [marshalMembers, Except.ok.injEq] at h
    subst h
    simp
  | cons q rest ih =>
    obtain ⟨f, v⟩ := q
    rcases marshalMembers_cons_ok h with ⟨_, hr⟩ | ⟨_, w, ms', _, hr, rfl⟩
    · exact (ih hr).cons _
    · exact (ih hr).cons₂ _

theorem marshalMembers_mem_of_present {ps : List (Field K × V)} {ms : List (String × W)}
    (h : marshalMembers isEmpty enc ps = .ok ms) {p : Field K × V} (hp : p ∈ ps)
    (hno : (p.1.omitEmpty && isEmpty p.2) = false) :
    ∃ w, enc p.2 = .ok w ∧ (p.1.jsonName, w) ∈ ms := by
  induction ps generalizing ms with
  | nil => cases hp
  | cons q rest ih =>
    obtain ⟨f, v⟩ := q
    rcases List.mem_cons.1 hp with rfl | hp'
    · rcases marshalMembers_cons_ok h with ⟨hom, _⟩ | ⟨_, w, ms', hw, _, rfl⟩
      · simp only at hno
        rw [hno] at hom
        cases hom
      · exact ⟨w, hw, List.mem_cons_self _ _⟩
    · rcases marshalMembers_cons_ok h with ⟨_, hr⟩ | ⟨_, w, ms', _, hr, rfl⟩
      · exact ih hr hp'
      · obtain ⟨w', hw', hmem⟩ := ih hr hp'
        exact ⟨w', hw', List.mem_cons_of_mem _ hmem⟩

theorem roundTrip_members (dec : K → W → V → Step V) (kindOf : V → K)
    {fields : List (Field K)} {record dst : List V}
    {ms : List (String × W)} (hgood : GoodTable fields)
    (hdst : dst.map kindOf = fields.map Field.kind)
    (hlaw : ∀ (i : Nat) (f : Field K) (v old : V) (w : W), fields[i]? = some f →
      record[i]? = some v → dst[i]? = some old → enc v = .ok w →
      ∃ r e, dec f.kind w old = .done r e ∧ kindOf (r.getD old) = f.kind)
    (h : marshalMembers isEmpty enc (fields.zip record) = .ok ms) :
    ∃ dst' err', unmarshalMembers fields dec ms dst none = some (dst', err') ∧
      dst'.map kindOf = fields.map Field.kind ∧
      ((∀ (i : Nat) (f : Field K) (v old : V) (w : W) (r : Option V)
          (e : Option UnmarshalError), fields[i]? = some f → record[i]? = some v →
          dst[i]? = some old → enc v = .ok w → dec f.kind w old = .done r e → e = none) →
        err' = none) ∧
      ∀ (i : Nat) (f : Field K) (v : V), fields[i]? = some f → record[i]? = some v →
        ((f.omitEmpty && isEmpty v) = true → dst'[i]? = dst[i]?) ∧
        ((f.omitEmpty && isEmpty v) = false →
          ∃ w old r e, enc v = .ok w ∧ dst[i]? = some old ∧
            dec f.kind w old = .done r e ∧ dst'[i]? = some (r.getD old)) := by
  have horigin : ∀ m ∈ ms, ∃ j f v, fields[j]? = some f ∧ record[j]? = some v ∧
      m.1 = f.jsonName ∧ (f.omitEmpty && isEmpty v) = false ∧ enc v = .ok m.2 ∧
      findField fields m.1 = some j := by
    intro m hm
    obtain ⟨p, hp, hname, hno, henc⟩ := marshalMembers_mem h hm
    obtain ⟨j, hj⟩ := List.mem_iff_getElem?.1 hp
    have hj' := List.getElem?_zip_eq_some.1 hj
    refine ⟨j, p.1, p.2, hj'.1, hj'.2, hname, hno, henc, ?_⟩
    rw [hname]
    exact findField_of_good hgood hj'.1
  have hold : ∀ {j : Nat} {f : Field K}, fields[j]? = some f → ∃ old, dst[j]? = some old := by
    intro j f hf
    have h1 : (dst.map kindOf)[j]? = some f.kind := by rw [hdst]; simp [hf]
    rw [List.getElem?_map] at h1
    cases hd : dst[j]? with
    | none => rw [hd] at h1; cases h1
    | some old => exact ⟨old, rfl⟩
  have hdecodes : ∀ m ∈ ms, DecodesAt fields dec kindOf dst m := by
    intro m hm
    obtain ⟨j, f, v, hf, hv, _, _, henc, hfind⟩ := horigin m hm
    obtain ⟨old, ho⟩ := hold hf
    obtain ⟨r, e, hd, hk⟩ := hlaw j f v old m.2 hf hv ho henc
    exact ⟨j, f, old, r, e, hfind, hf, ho, hd, hk⟩
  have hkeys : (ms.map Prod.fst).Nodup :=
    (marshalMembers_keys_sublist h).nodup (zip_names_nodup hgood.2 record)
  have hpw : ms.Pairwise (fun m m' => findField fields m.1 ≠ findField fields m'.1) := by
    have hk2 : ms.Pairwise (fun m m' => m.1 ≠ m'.1) := by
      simpa [List.Nodup, List.pairwise_map] using hkeys
    refine hk2.imp_of_mem ?_
    intro a b ha hb hab heq
    obtain ⟨j, f, _, hf, _, hname, _, _, hfind⟩ := horigin a ha
    obtain ⟨j', f', _, hf', _, hname', _, _, hfind'⟩ := horigin b hb
    rw [hfind, hfind'] at heq
    have hjj : j = j' := Option.some.inj heq
    subst hjj
    rw [hf] at hf'
    cases hf'
    exact hab (hname.trans hname'.symm)
  obtain ⟨dst', err', hrun, hc', herr, hpt⟩ :=
    unmarshalMembers_spec ms dst none hdst hpw hdecodes
  refine ⟨dst', err', hrun, hc', ?_, ?_⟩
  · intro hno
    apply herr
    intro m hm i f old r e hfi hf ho hd
    obtain ⟨j, f', v, hf', hv, _, _, henc, hfind⟩ := horigin m hm
    rw [hfind] at hfi
    have hji : j = i := Option.some.inj hfi
    subst hji
    rw [hf] at hf'
    cases hf'
    exact hno j f v old m.2 r e hf hv ho henc hd
  · intro i f v hf hv
    constructor
    · intro hom
      apply (hpt i).1
      intro m hm hres
      obtain ⟨j, f', v', hf', hv', _, hno, _, hfind⟩ := horigin m hm
      rw [hfind] at hres
      have hji : j = i := Option.some.inj hres
      subst hji
      rw [hf] at hf'
      rw [hv] at hv'
      cases hf'
      cases hv'
      rw [hom] at hno
      cases hno
    · intro hno
      have hp : (f, v) ∈ fields.zip record :=
        List.mem_iff_getElem?.2 ⟨i, List.getElem?_zip_eq_some.2 ⟨hf, hv⟩⟩
      obtain ⟨w, hw, hmem⟩ := marshalMembers_mem_of_present h hp hno
      have hfind : findField fields (f.jsonName, w).1 = some i := findField_of_good hgood hf
      obtain ⟨f', old, r, e, hf', hold', hdec, hres⟩ := (hpt i).2 _ hmem hfind
      rw [hf] at hf'
      cases hf'
      exact ⟨w, old, r, e, hw, hold', hdec, hres⟩

theorem marshalMembers_congr {fields : List (Field K)} (r r' : List V)
    (hlen : r'.length = r.length)
    (hpt : ∀ (j : Nat) (f : Field K) (v v' : V), fields[j]? = some f → r[j]? = some v →
      r'[j]? = some v' →
      (f.omitEmpty && isEmpty v') = (f.omitEmpty && isEmpty v) ∧
      ((f.omitEmpty && isEmpty v) = false → enc v' = enc v)) :
    marshalMembers isEmpty enc (fields.zip r') = marshalMembers isEmpty enc (fields.zip r) := by
  induction fields generalizing r r' with
  | nil => simp [marshalMembers]
  | cons f fs ih =>
    cases r with
    | nil =>
      cases r' with
      | nil => rfl
      | cons v' vs' => simp at hlen
    | cons v vs =>
      cases r' with
      | nil => simp at hlen
      | cons v' vs' =>
        have htail := ih vs vs' (by simpa using hlen)
          (fun j g x x' hg hx hx' => hpt (j + 1) g x x' (by simpa using hg) (by simpa using hx)
            (by simpa using hx'))
        obtain ⟨hom, henc⟩ := hpt 0 f v v' (by simp) (by simp) (by simp)
        rw [List.zip_cons_cons, List.zip_cons_cons, marshalMembers, marshalMembers, hom, htail]
        by_cases hc : (f.omitEmpty && isEmpty v) = true
        · rw [if_pos hc, if_pos hc]
        · have hc' : (f.omitEmpty && isEmpty v) = false := by simpa using hc
          rw [if_neg hc, if_neg hc, henc hc']

end RoundTrip

/-! ## Values: decoding what was encoded -/

theorem Int64.ofInt?_val (i : Int64) : Int64.ofInt? i.val = some i := by
  unfold Int64.ofInt?
  rw [dif_pos i.property]

theorem Time.ofRFC3339_offset (t : Time) :
    (Time.ofRFC3339 t.sec t.nsec t.offset).offset = t.offset := by
  unfold Time.ofRFC3339 Time.offset
  by_cases h0 : t.zone.getD 0 = 0
  · simp [h0]
  · simp [h0]

theorem Time.ofRFC3339_marshalable {t : Time} (h : t.marshalable = true) :
    (Time.ofRFC3339 t.sec t.nsec t.offset).marshalable = true := by
  unfold Time.marshalable at h ⊢
  rw [Time.ofRFC3339_offset]
  exact h

theorem Time.ofRFC3339_exact {t : Time} (h : (t.mono.isNone && t.zone != some 0) = true) :
    Time.ofRFC3339 t.sec t.nsec t.offset = t := by
  obtain ⟨sec, nsec, mono, zone⟩ := t
  simp only [Bool.and_eq_true, Option.isNone_iff_eq_none, bne_iff_ne, ne_eq] at h
  obtain ⟨hm, hz⟩ := h
  subst hm
  cases zone with
  | none => rfl
  | some off =>
    have hoff : off ≠ 0 := fun e => hz (by rw [e])
    simp [Time.ofRFC3339, Time.offset, hoff]

theorem decodeLeaf_iface (t : Tok) (old : Leaf) : decodeLeaf .iface t old = decodeIface t := by
  cases t <;> rfl

theorem decodeIface_int (i : Int) :
    decodeIface (.int i) =
      if i.natAbs < float64Overflow then .done (some (.iface (some (.generic (.int i))))) none
      else .done none (some .type) := rfl

theorem decodeLeaf_int (i : Int64) (old : Leaf) :
    decodeLeaf .int (.int i.val) old = .done (some (.int i)) none := by
  have h : decodeLeaf .int (.int i.val) old =
      (match Int64.ofInt? i.val with
        | some x => .done (some (.int x)) none
        | none => .done none (some .type)) := rfl
  rw [h, Int64.ofInt?_val]

theorem decodeLeaf_int64 (i : Int64) (old : Leaf) :
    decodeLeaf .int64 (.int i.val) old = .done (some (.int64 i)) none := by
  have h : decodeLeaf .int64 (.int i.val) old =
      (match Int64.ofInt? i.val with
        | some x => .done (some (.int64 x)) none
        | none => .done none (some .type)) := rfl
  rw [h, Int64.ofInt?_val]

theorem decodeIface_spec (t : Tok) :
    ∃ r e, decodeIface t = .done r e ∧
      (∀ l', r = some l' → l'.kind = .iface ∧ ∃ t', encodeLeaf l' = .ok t') ∧
      (t.decodable = true → e = none) := by
  have hgen : ∀ t₀ : Tok, ∀ l', some (Leaf.iface (some (Dyn.generic t₀))) = some l' →
      l'.kind = .iface ∧ ∃ t', encodeLeaf l' = .ok t' := by
    intro t₀ l' hl
    cases hl
    exact ⟨rfl, _, rfl⟩
  cases t with
  | null =>
    refine ⟨some (.iface none), none, rfl, ?_, fun _ => rfl⟩
    intro l' hl
    cases hl
    exact ⟨rfl, _, rfl⟩
  | int i =>
    by_cases hr : i.natAbs < float64Overflow
    · exact ⟨some (.iface (some (.generic (.int i)))), none,
        by rw [decodeIface_int, if_pos hr], hgen _, fun _ => rfl⟩
    · have hd : decodeIface (.int i) = .done none (some .type) := by
        rw [decodeIface_int, if_neg hr]
      refine ⟨none, some .type, hd, fun l' hl => (by cases hl), ?_⟩
      intro hdec
      unfold Tok.decodable at hdec
      rw [hd] at hdec
      cases hdec
  | number text fits =>
    cases fits with
    | true => exact ⟨_, none, rfl, hgen _, fun _ => rfl⟩
    | false =>
      refine ⟨none, some .type, rfl, fun l' hl => (by cases hl), ?_⟩
      intro hd
      cases hd
  | raw text fits =>
    cases fits with
    | true => exact ⟨_, none, rfl, hgen _, fun _ => rfl⟩
    | false =>
      refine ⟨_, some .type, rfl, hgen _, ?_⟩
      intro hd
      cases hd
  | bool b => exact ⟨_, none, rfl, hgen _, fun _ => rfl⟩
  | float f => exact ⟨_, none, rfl, hgen _, fun _ => rfl⟩
  | str s => exact ⟨_, none, rfl, hgen _, fun _ => rfl⟩
  | time sec nsec offset => exact ⟨_, none, rfl, hgen _, fun _ => rfl⟩
  | strs xs => exact ⟨_, none, rfl, hgen _, fun _ => rfl⟩
  | floats xs => exact ⟨_, none, rfl, hgen _, fun _ => rfl⟩
  | strMap entries => exact ⟨_, none, rfl, hgen _, fun _ => rfl⟩
  | regen t₀ => exact ⟨_, none, rfl, hgen _, fun _ => rfl⟩

theorem decodeLeaf_encodeLeaf {l : Leaf} {t : Tok} (h : encodeLeaf l = .ok t) (old : Leaf) :
    ∃ r e, decodeLeaf l.kind t old = .done r e ∧
      (∀ l', r = some l' → l'.kind = l.kind ∧ ∃ t', encodeLeaf l' = .ok t') ∧
      (l.decodable = true → e = none) ∧
      (l = l.kind.zero → r = some l ∧ e = none) ∧
      (l.stable = true →
        ∃ l', r = some l' ∧ e = none ∧ encodeLeaf l' = .ok t ∧ isEmptyLeaf l' = isEmptyLeaf l) ∧
      (l.exact = true → r = some l) := by
  have hsame : ∀ (l₀ : Leaf), encodeLeaf l₀ = .ok t →
      decodeLeaf l₀.kind t old = .done (some l₀) none →
      ∃ r e, decodeLeaf l₀.kind t old = .done r e ∧
        (∀ l', r = some l' → l'.kind = l₀.kind ∧ ∃ t', encodeLeaf l' = .ok t') ∧
        (l₀.decodable = true → e = none) ∧
        (l₀ = l₀.kind.zero → r = some l₀ ∧ e = none) ∧
        (l₀.stable = true →
          ∃ l', r = some l' ∧ e = none ∧ encodeLeaf l' = .ok t ∧
            isEmptyLeaf l' = isEmptyLeaf l₀) ∧
        (l₀.exact = true → r = some l₀) := by
    intro l₀ henc hdec
    refine ⟨some l₀, none, hdec, ?_, fun _ => rfl, fun _ => ⟨rfl, rfl⟩,
      fun _ => ⟨l₀, rfl, rfl, henc, rfl⟩, fun _ => rfl⟩
    intro l' hl
    cases hl
    exact ⟨rfl, t, henc⟩
  cases l with
  | float64 f =>
    by_cases hf : f.isNaNOrInf = true
    · simp [encodeLeaf, hf] at h
    · have h' := h
      simp only [encodeLeaf, hf] at h'
      cases h'
      exact hsame _ h rfl
  | int i =>
    have h' := h
    simp only [encodeLeaf] at h'
    cases h'
    exact hsame _ h (decodeLeaf_int i old)
  | int64 i =>
    have h' := h
    simp only [encodeLeaf] at h'
    cases h'
    exact hsame _ h (decodeLeaf_int64 i old)
  | string s =>
    have h' := h
    simp only [encodeLeaf] at h'
    cases h'
    exact hsame _ h rfl
  | bool b =>
    have h' := h
    simp only [encodeLeaf] at h'
    cases h'
    exact hsame _ h rfl
  | time tm =>
    by_cases hm : tm.marshalable = true
    · have h' := h
      simp only [encodeLeaf, Time.MarshalJSON, hm, if_true] at h'
      cases h'
      have henc' : encodeLeaf (.time (Time.ofRFC3339 tm.sec tm.nsec tm.offset)) =
          .ok (.time tm.sec tm.nsec tm.offset) := by
        simp only [encodeLeaf, Time.MarshalJSON, Time.ofRFC3339_marshalable hm, if_true,
          Time.ofRFC3339_offset]
        rfl
      refine ⟨some (.time (Time.ofRFC3339 tm.sec tm.nsec tm.offset)), none, rfl, ?_,
        fun _ => rfl, ?_, fun _ => ⟨_, rfl, rfl, henc', rfl⟩, ?_⟩
      · intro l' hl
        cases hl
        exact ⟨rfl, _, henc'⟩
      · intro hz
        simp only [Leaf.kind, LeafKind.zero, Leaf.time.injEq] at hz
        subst hz
        exact ⟨rfl, rfl⟩
      · intro hex
        simp only [Leaf.exact] at hex
        rw [Time.ofRFC3339_exact hex]
    · simp [encodeLeaf, Time.MarshalJSON, hm] at h
  | stringSlice xs =>
    cases xs with
    | none =>
      have h' := h
      simp only [encodeLeaf] at h'
      cases h'
      exact hsame _ h rfl
    | some xs =>
      have h' := h
      simp only [encodeLeaf] at h'
      cases h'
      exact hsame _ h rfl
  | float64Slice xs =>
    cases xs with
    | none =>
      have h' := h
      simp only [encodeLeaf] at h'
      cases h'
      exact hsame _ h rfl
    | some xs =>
      by_cases hx : xs.any Float64.isNaNOrInf = true
      · simp [encodeLeaf, hx] at h
      · have h' := h
        simp only [encodeLeaf, hx] at h'
        cases h'
        exact hsame _ h rfl
  | iface d =>
    cases d with
    | none =>
      have h' := h
      simp only [encodeLeaf] at h'
      cases h'
      exact hsame _ h rfl
    | some d =>
      cases d with
      | marshals t₀ =>
        simp only [encodeLeaf, Except.ok.injEq] at h
        subst h
        obtain ⟨r, e, hd, hk, hdec⟩ := decodeIface_spec t₀
        refine ⟨r, e, (decodeLeaf_iface t₀ old).trans hd, hk, hdec, fun hz => (by cases hz), fun hs => (by cases hs),
          fun hs => (by cases hs)⟩
      | generic t₀ =>
        simp only [encodeLeaf, Except.ok.injEq] at h
        subst h
        refine ⟨some (.iface (some (.generic (.regen t₀)))), none, rfl, ?_, fun _ => rfl,
          fun hz => (by cases hz), fun hs => (by cases hs), fun hs => (by cases hs)⟩
        intro l' hl
        cases hl
        exact ⟨rfl, _, rfl⟩
      | unsupported =>
        simp [encodeLeaf] at h
  | stringMap m =>
    cases m with
    | none =>
      have h' := h
      simp only [encodeLeaf] at h'
      cases h'
      exact hsame _ h rfl
    | some es =>
      simp only [encodeLeaf, Except.ok.injEq] at h
      subst h
      refine ⟨some (.stringMap (some (sortedEntries es ++ old.mapEntries))), none, rfl, ?_,
        fun _ => rfl, fun hz => (by cases hz), fun hs => (by cases hs),
        fun hs => (by cases hs)⟩
      intro l' hl
      cases hl
      exact ⟨rfl, _, rfl⟩

section RoundTripStruct

variable {K V W : Type} {enc : V → Except MarshalError W}

theorem marshalMembers_total (isEmpty : V → Bool) {ps : List (Field K × V)}
    (h : ∀ p ∈ ps, ∃ w, enc p.2 = .ok w) : ∃ ms, marshalMembers isEmpty enc ps = .ok ms := by
  induction ps with
  | nil => exact ⟨[], rfl⟩
  | cons q rest ih =>
    obtain ⟨f, v⟩ := q
    obtain ⟨ms, hms⟩ := ih (fun p hp => h p (List.mem_cons_of_mem _ hp))
    obtain ⟨w, hw⟩ := h (f, v) (List.mem_cons_self _ _)
    rw [marshalMembers]
    by_cases hom : (f.omitEmpty && isEmpty v) = true
    · rw [if_pos hom]
      exact ⟨ms, hms⟩
    · rw [if_neg hom]
      simp only at hw
      rw [hw, hms]
      exact ⟨_, rfl⟩

theorem kind_of_conforms {kindOf : V → K} {fields : List (Field K)}
    {record : List V} (hc : record.map kindOf = fields.map Field.kind) {i : Nat}
    {f : Field K} {v : V} (hf : fields[i]? = some f) (hv : record[i]? = some v) :
    kindOf v = f.kind := by
  have h1 : (record.map kindOf)[i]? = some f.kind := by rw [hc]; simp [hf]
  rw [List.getElem?_map, hv] at h1
  simpa using h1

theorem roundTrip_struct {isEmpty : V → Bool} (dec : K → W → V → Step V) (kindOf : V → K)
    (zero : K → V) (P : V → Prop) (decodable stable : V → Bool)
    {fields : List (Field K)} {record : List V} {ms : List (String × W)}
    (hgood : GoodTable fields) (hrec : record.map kindOf = fields.map Field.kind)
    (hzk : ∀ k, kindOf (zero k) = k) (hzP : ∀ k, P (zero k))
    (hze : ∀ v, isEmpty v = true → isEmpty (zero (kindOf v)) = true)
    (hlaw : ∀ v ∈ record, ∀ w, enc v = .ok w →
      ∃ r e, dec (kindOf v) w (zero (kindOf v)) = .done r e ∧
        (∀ v', r = some v' → kindOf v' = kindOf v ∧ P v') ∧
        (decodable v = true → e = none) ∧
        (stable v = true → ∃ v', r = some v' ∧ enc v' = .ok w ∧ isEmpty v' = isEmpty v))
    (h : marshalMembers isEmpty enc (fields.zip record) = .ok ms) :
    ∃ dst' err, unmarshalMembers fields dec ms (fields.map (fun f => zero f.kind)) none =
        some (dst', err) ∧
      dst'.map kindOf = fields.map Field.kind ∧
      (∀ v ∈ dst', P v) ∧
      ((∀ v ∈ record, decodable v = true) → err = none) ∧
      ((∀ v ∈ record, stable v = true) →
        marshalMembers isEmpty enc (fields.zip dst') = .ok ms) ∧
      ∀ (i : Nat) (f : Field K) (v : V), fields[i]? = some f → record[i]? = some v →
        ((f.omitEmpty && isEmpty v) = true → dst'[i]? = some (zero f.kind)) ∧
        ((f.omitEmpty && isEmpty v) = false →
          ∃ w r e, enc v = .ok w ∧ dec f.kind w (zero f.kind) = .done r e ∧
            dst'[i]? = some (r.getD (zero f.kind))) := by
  have hdstget : ∀ {i : Nat} {f : Field K}, fields[i]? = some f →
      (fields.map (fun f => zero f.kind))[i]? = some (zero f.kind) := by
    intro i f hf
    rw [List.getElem?_map, hf]
    rfl
  have hdst : (fields.map (fun f => zero f.kind)).map kindOf = fields.map Field.kind := by
    rw [List.map_map]
    apply List.map_congr_left
    intro g _
    exact hzk g.kind
  have hlaw' : ∀ (i : Nat) (f : Field K) (v old : V) (w : W), fields[i]? = some f →
      record[i]? = some v → (fields.map (fun f => zero f.kind))[i]? = some old →
      enc v = .ok w → ∃ r e, dec f.kind w old = .done r e ∧ kindOf (r.getD old) = f.kind := by
    intro i f v old w hf hv hold hw
    rw [hdstget hf] at hold
    cases hold
    have hk := kind_of_conforms hrec hf hv
    obtain ⟨r, e, hd, hkp, _⟩ := hlaw v (List.getElem?_mem hv) w hw
    rw [hk] at hd
    refine ⟨r, e, hd, ?_⟩
    cases r with
    | none => exact hzk f.kind
    | some v' => rw [Option.getD_some, (hkp v' rfl).1, hk]
  obtain ⟨dst', err, hrun, hc', herr, hpt⟩ := roundTrip_members dec kindOf hgood hdst hlaw' h
  have hpt' : ∀ (i : Nat) (f : Field K) (v : V), fields[i]? = some f → record[i]? = some v →
      ((f.omitEmpty && isEmpty v) = true → dst'[i]? = some (zero f.kind)) ∧
      ((f.omitEmpty && isEmpty v) = false →
        ∃ w r e, enc v = .ok w ∧ dec f.kind w (zero f.kind) = .done r e ∧
          dst'[i]? = some (r.getD (zero f.kind))) := by
    intro i f v hf hv
    obtain ⟨h1, h2⟩ := hpt i f v hf hv
    constructor
    · intro hom
      rw [h1 hom, hdstget hf]
    · intro hno
      obtain ⟨w, old, r, e, hw, hold, hd, hres⟩ := h2 hno
      rw [hdstget hf] at hold
      cases hold
      exact ⟨w, r, e, hw, hd, hres⟩
  have hlen' : dst'.length = fields.length := by
    have := congrArg List.length hc'
    simpa using this
  have hlenr : record.length = fields.length := by
    have := congrArg List.length hrec
    simpa using this
  refine ⟨dst', err, hrun, hc', ?_, ?_, ?_, hpt'⟩
  · intro x hx
    obtain ⟨i, hi⟩ := List.mem_iff_getElem?.1 hx
    have hilt : i < dst'.length := (List.getElem?_eq_some.1 hi).1
    have hif : i < fields.length := hlen' ▸ hilt
    have hir : i < record.length := hlenr ▸ hif
    have hf : fields[i]? = some fields[i] := List.getElem?_eq_getElem hif
    have hv : record[i]? = some record[i] := List.getElem?_eq_getElem hir
    obtain ⟨h1, h2⟩ := hpt' i _ _ hf hv
    by_cases hom : (fields[i].omitEmpty && isEmpty record[i]) = true
    · have := h1 hom
      rw [hi] at this
      cases this
      exact hzP _
    · obtain ⟨w, r, e, hw, hd, hres⟩ := h2 (by simpa using hom)
      rw [hi] at hres
      cases hres
      have hk := kind_of_conforms hrec hf hv
      obtain ⟨r', e', hd', hkp, _⟩ := hlaw _ (List.getElem?_mem hv) w hw
      rw [hk, hd] at hd'
      cases hd'
      cases r with
      | none => exact hzP _
      | some v' => exact (hkp v' rfl).2
  · intro hall
    apply herr
    intro i f v old w r e hf hv hold hw hd
    rw [hdstget hf] at hold
    cases hold
    have hk := kind_of_conforms hrec hf hv
    obtain ⟨r', e', hd', _, hdec, _⟩ := hlaw v (List.getElem?_mem hv) w hw
    rw [hk, hd] at hd'
    cases hd'
    exact hdec (hall v (List.getElem?_mem hv))
  · intro hall
    rw [marshalMembers_congr record dst' (by rw [hlen', hlenr]), h]
    intro j f v v' hf hv hv'
    have hk := kind_of_conforms hrec hf hv
    obtain ⟨h1, h2⟩ := hpt' j f v hf hv
    by_cases hom : (f.omitEmpty && isEmpty v) = true
    · have := h1 hom
      rw [hv'] at this
      cases this
      have hemp : isEmpty v = true := by
        simp only [Bool.and_eq_true] at hom
        exact hom.2
      have hz := hze v hemp
      rw [hk] at hz
      refine ⟨?_, fun hno => ?_⟩
      · rw [hom]
        simp only [Bool.and_eq_true] at hom ⊢
        exact ⟨hom.1, hz⟩
      · rw [hom] at hno
        cases hno
    · have hno : (f.omitEmpty && isEmpty v) = false := by simpa using hom
      obtain ⟨w, r, e, hw, hd, hres⟩ := h2 hno
      rw [hv'] at hres
      cases hres
      obtain ⟨r', e', hd', _, _, hst⟩ := hlaw v (List.getElem?_mem hv) w hw
      rw [hk, hd] at hd'
      cases hd'
      obtain ⟨v'', hr, henc, hemp⟩ := hst (hall v (List.getElem?_mem hv))
      subst hr
      simp only [Option.getD_some]
      exact ⟨by rw [hemp], fun _ => by rw [henc, hw]⟩

end RoundTripStruct

/-! ## Structs of leaves, `[]*Execution`, field values -/

theorem goodTable_Execution : GoodTable Execution.fields := by
  constructor <;> decide

theorem LeafKind.leaf_kind_zero (k : LeafKind) : k.zero.kind = k := by
  cases k <;> rfl

theorem LeafKind.leaf_zero_encodes (k : LeafKind) : ∃ t, encodeLeaf k.zero = .ok t := by
  cases k <;> exact ⟨_, rfl⟩

theorem isEmptyLeaf_zero {l : Leaf} (h : isEmptyLeaf l = true) :
    isEmptyLeaf l.kind.zero = true := by
  cases l <;> first | rfl | cases h

theorem leafStruct_roundTrip {fields : List (Field LeafKind)} (hgood : GoodTable fields)
    {record : List Leaf} (hrec : record.map Leaf.kind = fields.map Field.kind)
    {ms : List (String × Tok)} (h : marshalLeafStruct fields record = .ok ms) :
    ∃ dst' err, unmarshalLeafStruct fields ms (fields.map (fun f => f.kind.zero)) =
        some (dst', err) ∧
      dst'.map Leaf.kind = fields.map Field.kind ∧
      (∃ ms', marshalLeafStruct fields dst' = .ok ms') ∧
      (record.all Leaf.decodable = true → err = none) ∧
      (record.all Leaf.stable = true → marshalLeafStruct fields dst' = .ok ms) := by
  unfold marshalLeafStruct at h
  rw [visiblePairs_of_good hgood] at h
  obtain ⟨dst', err, hrun, hc', hP, herr, hst, _⟩ := roundTrip_struct decodeLeaf Leaf.kind
    LeafKind.zero (fun l => ∃ t, encodeLeaf l = .ok t) Leaf.decodable Leaf.stable hgood hrec
    LeafKind.leaf_kind_zero LeafKind.leaf_zero_encodes (fun l hl => isEmptyLeaf_zero hl)
    (fun l _ w hw => by
      obtain ⟨r, e, hd, hk, hdec, _, hstab, _⟩ := decodeLeaf_encodeLeaf hw l.kind.zero
      refine ⟨r, e, hd, hk, hdec, fun hs => ?_⟩
      obtain ⟨l', hr, _, henc, hemp⟩ := hstab hs
      exact ⟨l', hr, henc, hemp⟩) h
  refine ⟨dst', err, hrun, hc', ?_, ?_, ?_⟩
  · unfold marshalLeafStruct
    rw [visiblePairs_of_good hgood]
    apply marshalMembers_total isEmptyLeaf
    intro p hp
    exact hP p.2 (List.of_mem_zip hp).2
  · intro hall
    exact herr (fun l hl => List.all_eq_true.1 hall l hl)
  · intro hall
    unfold marshalLeafStruct
    rw [visiblePairs_of_good hgood]
    exact hst (fun l hl => List.all_eq_true.1 hall l hl)

theorem decodeExecs_encodeExecs {xs : List (Option (List Leaf))}
    {os : List (Option (List (String × Tok)))}
    (hwf : ∀ r, some r ∈ xs → r.map Leaf.kind = Execution.fields.map Field.kind)
    (h : encodeExecs xs = .ok os) :
    ∃ rs e, decodeExecs os = some (rs, e) ∧
      (∀ r, some r ∈ rs → r.map Leaf.kind = Execution.fields.map Field.kind) ∧
      (∃ os', encodeExecs rs = .ok os') ∧
      (rs.isEmpty = xs.isEmpty ∧ os.isEmpty = xs.isEmpty) ∧
      (xs.all (fun o => (o.getD []).all Leaf.decodable) = true → e = none) ∧
      (xs.all (fun o => (o.getD []).all Leaf.stable) = true → encodeExecs rs = .ok os) := by
  induction xs generalizing os with
  | nil =>
    simp only [encodeExecs, Except.ok.injEq] at h
    subst h
    exact ⟨[], none, rfl, fun r hr => (by cases hr), ⟨[], rfl⟩, ⟨rfl, rfl⟩, fun _ => rfl,
      fun _ => rfl⟩
  | cons x rest ih =>
    have hwf' : ∀ r, some r ∈ rest → r.map Leaf.kind = Execution.fields.map Field.kind :=
      fun r hr => hwf r (List.mem_cons_of_mem _ hr)
    cases x with
    | none =>
      rw [encodeExecs] at h
      cases hr : encodeExecs rest with
      | error e => rw [hr] at h; cases h
      | ok os₀ =>
        rw [hr] at h
        simp only [Except.ok.injEq] at h
        subst h
        obtain ⟨rs, e, hrs, hwfr, ⟨os', hos'⟩, _, hdec, hst⟩ := ih hwf' hr
        refine ⟨none :: rs, e, ?_, ?_, ⟨none :: os', ?_⟩, ⟨rfl, rfl⟩, ?_, ?_⟩
        · rw [decodeExecs, hrs]
        · intro r hr'
          rcases List.mem_cons.1 hr' with h0 | h1
          · cases h0
          · exact hwfr r h1
        · rw [encodeExecs, hos']
        · intro hall
          simp only [List.all_cons, Bool.and_eq_true] at hall
          exact hdec hall.2
        · intro hall
          simp only [List.all_cons, Bool.and_eq_true] at hall
          rw [encodeExecs, hst hall.2]
    | some r₀ =>
      rw [encodeExecs] at h
      cases hm : marshalLeafStruct Execution.fields r₀ with
      | error e => rw [hm] at h; cases h
      | ok ms =>
        rw [hm] at h
        cases hr : encodeExecs rest with
        | error e => rw [hr] at h; cases h
        | ok os₀ =>
          rw [hr] at h
          simp only [Except.ok.injEq] at h
          subst h
          obtain ⟨rs, e, hrs, hwfr, ⟨os', hos'⟩, _, hdec, hst⟩ := ih hwf' hr
          obtain ⟨r', e', hr', hc', ⟨ms', hms'⟩, hdec', hst'⟩ :=
            leafStruct_roundTrip goodTable_Execution (hwf r₀ (List.mem_cons_self _ _)) hm
          have hzero : ({} : Execution).toRecord =
              Execution.fields.map (fun f => f.kind.zero) := rfl
          refine ⟨some r' :: rs, e' <|> e, ?_, ?_, ⟨some ms' :: os', ?_⟩, ⟨rfl, rfl⟩,
            ?_, ?_⟩
          · rw [decodeExecs, hzero, hr', hrs]
          · intro r hr''
            rcases List.mem_cons.1 hr'' with h0 | h1
            · cases h0
              exact hc'
            · exact hwfr r h1
          · rw [encodeExecs, hms', hos']
          · intro hall
            simp only [List.all_cons, Bool.and_eq_true, Option.getD_some] at hall
            rw [hdec' hall.1, hdec hall.2]
            rfl
          · intro hall
            simp only [List.all_cons, Bool.and_eq_true, Option.getD_some] at hall
            rw [encodeExecs, hst' hall.1, hst hall.2]

theorem decodeValue_encodeValue {v : Value} (hwf : v.WellFormed) {j : JSON}
    (h : encodeValue v = .ok j) :
    ∃ r e, decodeValue v.kind j v.kind.zero = .done r e ∧
      (∀ v', r = some v' → v'.kind = v.kind ∧ ∃ j', encodeValue v' = .ok j') ∧
      (v.decodable = true → e = none) ∧
      (v.stable = true →
        ∃ v', r = some v' ∧ encodeValue v' = .ok j ∧ isEmptyValue v' = isEmptyValue v) ∧
      (v = v.kind.zero → r = some v ∧ e = none) ∧
      (v.exact = true → r = some v) := by
  cases v with
  | leaf l =>
    rw [encodeValue] at h
    cases hl : encodeLeaf l with
    | error e => rw [hl] at h; cases h
    | ok t =>
      rw [hl] at h
      simp only [Except.ok.injEq] at h
      subst h
      obtain ⟨r, e, hd, hk, hdec, hz, hst, hex⟩ := decodeLeaf_encodeLeaf hl l.kind.zero
      have hdv : decodeValue (.leaf l.kind) (.tok t) (.leaf l.kind.zero) =
          .done (r.map Value.leaf) e := by
        simp only [decodeValue, hd]
      refine ⟨r.map Value.leaf, e, hdv, ?_, hdec, ?_, ?_, ?_⟩
      · intro v' hv'
        cases r with
        | none => cases hv'
        | some l' =>
          simp only [Option.map_some', Option.some.injEq] at hv'
          subst hv'
          obtain ⟨hk', t', ht'⟩ := hk l' rfl
          exact ⟨by simp only [Value.kind, hk'], .tok t', by rw [encodeValue, ht']⟩
      · intro hs
        obtain ⟨l', hr, _, henc, hemp⟩ := hst hs
        subst hr
        exact ⟨.leaf l', rfl, by rw [encodeValue, henc], hemp⟩
      · intro hv
        simp only [Value.kind, Kind.zero, Value.leaf.injEq] at hv
        obtain ⟨hr, he⟩ := hz hv
        subst hr
        exact ⟨rfl, he⟩
      · intro hx
        rw [hex hx]
        rfl
  | execs xs =>
    cases xs with
    | none =>
      simp only [encodeValue, Except.ok.injEq] at h
      subst h
      refine ⟨some (.execs none), none, rfl, ?_, fun _ => rfl,
        fun _ => ⟨_, rfl, rfl, rfl⟩, fun _ => ⟨rfl, rfl⟩, fun _ => rfl⟩
      intro v' hv'
      cases hv'
      exact ⟨rfl, _, rfl⟩
    | some xs =>
      rw [encodeValue] at h
      cases he : encodeExecs xs with
      | error e => rw [he] at h; cases h
      | ok os =>
        rw [he] at h
        simp only [Except.ok.injEq] at h
        subst h
        obtain ⟨rs, e, hrs, _, ⟨os', hos'⟩, ⟨hemp, hemp'⟩, hdec, hst⟩ :=
          decodeExecs_encodeExecs hwf he
        have hdv : decodeValue .execs (.objects os) (.execs none) =
            .done (some (.execs (some rs))) e := by
          cases os with
          | nil =>
            simp only [decodeExecs, Option.some.injEq, Prod.mk.injEq] at hrs
            rw [← hrs.1, ← hrs.2]
            rfl
          | cons o os₁ =>
            simp only [decodeValue, hrs]
        refine ⟨some (.execs (some rs)), e, hdv, ?_, hdec, ?_, fun hz => (by cases hz), ?_⟩
        · intro v' hv'
          cases hv'
          exact ⟨rfl, .objects os', by rw [encodeValue, hos']⟩
        · intro hs
          refine ⟨_, rfl, by rw [encodeValue, hst hs], ?_⟩
          simp only [isEmptyValue, Option.getD_some, hemp]
        · intro hx
          simp only [Value.exact, Option.getD_some, List.isEmpty_iff] at hx
          subst hx
          simp only [List.isEmpty_nil, List.isEmpty_iff] at hemp
          rw [hemp]

/-! ## The entities -/

set_option maxRecDepth 100000 in
theorem goodTable_Quote : GoodTable (Quote.fields.map Field.lift) := by
  constructor <;> decide

set_option maxRecDepth 100000 in
theorem goodTable_OptionQuote : GoodTable (OptionQuote.fields.map Field.lift) := by
  constructor <;> decide

set_option maxRecDepth 100000 in
theorem goodTable_Execution_lift : GoodTable (Execution.fields.map Field.lift) := by
  constructor <;> decide

set_option maxRecDepth 100000 in
theorem goodTable_Trade : GoodTable Trade.fields := by
  constructor <;> decide

set_option maxRecDepth 100000 in
theorem goodTable_OptionChain : GoodTable (OptionChain.fields.map Field.lift) := by
  constructor <;> decide

theorem Entity.goodTable (e : Entity) : GoodTable e.fields := by
  cases e
  · exact goodTable_Quote
  · exact goodTable_OptionQuote
  · exact goodTable_Execution_lift
  · exact goodTable_Trade
  · exact goodTable_OptionChain

theorem Entity.conforms (e : Entity) : e.record.map Value.kind = e.fields.map Field.kind := by
  cases e <;> rfl

theorem Entity.fresh_record (e : Entity) :
    e.fresh.record = e.fields.map (fun f => f.kind.zero) := by
  cases e <;> rfl

theorem Entity.wellFormed (e : Entity) : ∀ v ∈ e.record, v.WellFormed := by
  intro v hv
  cases v with
  | leaf l => trivial
  | execs xs =>
    cases e with
    | trade t =>
      simp only [Entity.record, Trade.toRecord, List.mem_cons, List.mem_singleton,
        List.not_mem_nil, or_false, Value.execs.injEq, false_or, reduceCtorEq] at hv
      subst hv
      cases hx : t.Executions with
      | none => trivial
      | some ys =>
        intro r hr
        simp only [Option.map_some', List.mem_map] at hr
        obtain ⟨y, _, hy⟩ := hr
        cases y with
        | none => cases hy
        | some x =>
          simp only [Option.map_some', Option.some.injEq] at hy
          subst hy
          rfl
    | quote q => simp [Entity.record] at hv
    | optionQuote o => simp [Entity.record] at hv
    | execution x => simp [Entity.record] at hv
    | optionChain c => simp [Entity.record] at hv

theorem Kind.kind_zero (k : Kind) : k.zero.kind = k := by
  cases k with
  | leaf k => cases k <;> rfl
  | execs => rfl

theorem Kind.zero_encodes (k : Kind) : ∃ j, encodeValue k.zero = .ok j := by
  cases k with
  | leaf k => cases k <;> exact ⟨_, rfl⟩
  | execs => exact ⟨_, rfl⟩

theorem Kind.zero_isEmpty {k : Kind} (h : k ≠ .leaf .time) : isEmptyValue k.zero = true := by
  cases k with
  | leaf k => cases k <;> first | rfl | exact absurd rfl h
  | execs => rfl

theorem isEmptyValue_zero {v : Value} (h : isEmptyValue v = true) :
    isEmptyValue v.kind.zero = true := by
  cases v with
  | leaf l => exact isEmptyLeaf_zero h
  | execs xs => rfl

theorem Entity.marshal_eq (e : Entity) :
    e.Marshal = marshalMembers isEmptyValue encodeValue (e.fields.zip e.record) := by
  unfold Entity.Marshal Types.Marshal
  rw [visiblePairs_of_good e.goodTable]

theorem Entity.mem_zip {e : Entity} {i : Nat} {f : Field Kind} {v : Value}
    (hf : e.fields[i]? = some f) (hv : e.record[i]? = some v) :
    (f, v) ∈ e.fields.zip e.record :=
  List.mem_iff_getElem?.2 ⟨i, List.getElem?_zip_eq_some.2 ⟨hf, hv⟩⟩

/-! ## The claims -/

/-- C1. For every account, `String()` returns the broker, a colon, the id, the text ` - ` and
the description, in this order; the specification's example gives `broker-x:U1 - desc`. -/
theorem Account_String_format (a : Account) :
    a.String = some (a.Broker ++ ":" ++ a.Id ++ " - " ++ a.Description) ∧
    sampleAccount.String = some "broker-x:U1 - desc" := by
  refine ⟨?_, by decide⟩
  simp only [Account.String, Sprintf, sprintfAux]
  congr 1
  apply String.ext
  simp [String.data_append, String.data_push]

/-- C2. `Code()` returns the code an `ErrorWithCode` was built with; for `ErrSymbolNotFound`
it is `http.StatusNotFound`, that is 404, and the message is `symbol not found`. -/
theorem ErrorWithCode_Code_returns_code (err : GoError) (code : Int) :
    (ErrorWithCode.mk err code).Code = code ∧
    ErrSymbolNotFound.Code = StatusNotFound ∧ ErrSymbolNotFound.Code = 404 ∧
    ErrSymbolNotFound.Error = some "symbol not found" :=
  ⟨rfl, rfl, rfl, rfl⟩

/-- C3. `ErrDisconnected` is the plain error made by `errors.New` with the message
`broker disconnected`; the code query finds no code on it (nor on any plain error), finds code
404 on `ErrSymbolNotFound`, and the two sentinels are different values. -/
theorem ErrDisconnected_has_no_code :
    ErrDisconnected = .errorString "broker disconnected" ∧
    ErrDisconnected.Error = some "broker disconnected" ∧
    ErrDisconnected.code? = none ∧
    (∀ text : String, (errorsNew text).code? = none) ∧
    ErrSymbolNotFound.toError.code? = some 404 ∧
    ErrSymbolNotFound.toError ≠ ErrDisconnected :=
  ⟨rfl, rfl, rfl, fun _ => rfl, rfl, by decide⟩

/-- C4, evaluated on the code.  `Put` is declared with the type `PutOrCall`; `Call` is
declared with its own expression and no type, so it is an untyped string constant: where no
type is imposed it is a `string`, not a `PutOrCall`, and it is not the typed constant the
claim describes.  Where a `PutOrCall` is expected the two constants convert to the values
`PUT` and `CALL`, which differ. -/
theorem Call_is_an_untyped_constant :
    Put.typ = .named "PutOrCall" ∧ Put.defaultType = "PutOrCall" ∧
    Call.typ = .untyped ∧ Call.defaultType = "string" ∧ Call.defaultType ≠ "PutOrCall" ∧
    Call ≠ ⟨.named "PutOrCall", "CALL"⟩ ∧
    Put.asPutOrCall = some ⟨"PUT"⟩ ∧ Call.asPutOrCall = some ⟨"CALL"⟩ ∧
    Put.asPutOrCall ≠ Call.asPutOrCall := by
  decide

/-- C5, the claim as stated fails.  The zero `Quote` has the zero value in the `omitempty`
field `LastTime`, and its encoding contains the key `last_time`; the chain whose `Exchanges`
is the empty slice `[]string{}`, which is not the zero value (the nil slice), is encoded
without the key `exchanges`; and a quote whose `High` is NaN, a non-zero value, has no
encoding at all. -/
theorem omitempty_is_not_omit_zero :
    (∃ f ms, (Entity.quote {}).fields[12]? = some f ∧ f.omitEmpty = true ∧
      f.jsonName = "last_time" ∧ (Entity.quote {}).record[12]? = some f.kind.zero ∧
      (Entity.quote {}).Marshal = .ok ms ∧
      ms.lookup "last_time" = some (.tok (.time 0 0 0))) ∧
    (∃ f v ms, (Entity.optionChain emptyExchangesChain).fields[2]? = some f ∧
      f.omitEmpty = true ∧ f.jsonName = "exchanges" ∧
      (Entity.optionChain emptyExchangesChain).record[2]? = some v ∧ v ≠ f.kind.zero ∧
      (Entity.optionChain emptyExchangesChain).Marshal = .ok ms ∧
      ms.lookup "exchanges" = none) ∧
    (∃ f v, (Entity.quote nanQuote).fields[0]? = some f ∧ f.omitEmpty = true ∧
      (Entity.quote nanQuote).record[0]? = some v ∧ v ≠ f.kind.zero ∧
      (Entity.quote nanQuote).Marshal = .error .unsupportedValue) := by
  refine ⟨⟨_, _, rfl, rfl, by decide, rfl, rfl, rfl⟩,
    ⟨_, _, _, rfl, rfl, by decide, rfl, by decide, rfl, rfl⟩,
    ⟨_, _, rfl, rfl, rfl, by decide, rfl⟩⟩

/-- C5, amended.  For every `Quote`, `OptionQuote`, `Execution`, `Trade` and `OptionChain`
value whose encoding succeeds and every field of it.  When the field is tagged `omitempty`: if
it is empty (a number equal to 0, `false`, the empty string, a nil interface, a slice of
length 0) the object has no key for it; this is so in particular when a field whose type is
not the struct `time.Time` holds its zero value; if it holds a non-zero value that is not
empty, the object contains the encoding of that value under the tagged name.  When the field
is not tagged `omitempty`, the object always contains it under the tagged name.  Nothing is
said about a zero `LastTime`. -/
theorem omitempty_members (e : Entity) (ms : List (String × JSON)) (h : e.Marshal = .ok ms)
    (i : Nat) (f : Field Kind) (v : Value) (hf : e.fields[i]? = some f)
    (hv : e.record[i]? = some v) :
    (f.omitEmpty = true → isEmptyValue v = true → ms.lookup f.jsonName = none) ∧
    (f.omitEmpty = true → v = f.kind.zero → f.kind ≠ .leaf .time →
      ms.lookup f.jsonName = none) ∧
    (f.omitEmpty = true → isEmptyValue v = false → v ≠ f.kind.zero →
      ∃ j, encodeValue v = .ok j ∧ ms.lookup f.jsonName = some j) ∧
    (f.omitEmpty = false → ∃ j, encodeValue v = .ok j ∧ ms.lookup f.jsonName = some j) := by
  rw [Entity.marshal_eq] at h
  have hnd := zip_names_nodup (Entity.goodTable e).2 e.record
  have hp := Entity.mem_zip hf hv
  have homit : f.omitEmpty = true → isEmptyValue v = true → ms.lookup f.jsonName = none :=
    fun hopt hem => marshalMembers_lookup_omitted hnd h hp (by simp [hopt, hem])
  refine ⟨homit, ?_, ?_, ?_⟩
  · intro hopt hz hk
    apply homit hopt
    rw [hz]
    exact Kind.zero_isEmpty hk
  · intro _ hne _
    exact marshalMembers_lookup_present hnd h hp (by simp [hne])
  · intro hopt
    exact marshalMembers_lookup_present hnd h hp (by simp [hopt])

/-- C5, amended, at a concrete value: the encoding of `sampleExecution` succeeds; it contains
the non-zero `RealizedPnL` under `realized_pnl`, and it has no key for the empty
`OptionType`. -/
theorem omitempty_members_witness :
    (Entity.execution sampleExecution).Marshal =
      .ok [("id", .tok (.str "e1")), ("exchange", .tok (.str "X")), ("size", .tok (.int 5)),
        ("price", .tok (.float Float64.one)),
        ("commissions", .tok (.float { sign := false, exponent := 0, mantissa := 0 })),
        ("realized_pnl", .tok (.float Float64.one)), ("time", .tok (.time 0 0 0))] ∧
    (∃ j, encodeValue (.leaf (.float64 Float64.one)) = .ok j ∧
      List.lookup "realized_pnl"
        [("id", JSON.tok (.str "e1")), ("exchange", .tok (.str "X")), ("size", .tok (.int 5)),
          ("price", .tok (.float Float64.one)),
          ("commissions", .tok (.float { sign := false, exponent := 0, mantissa := 0 })),
          ("realized_pnl", .tok (.float Float64.one)), ("time", .tok (.time 0 0 0))]
        = some j) :=
  ⟨rfl, (omitempty_members (.execution sampleExecution) _ rfl 9
    (Field.lift (field "RealizedPnL" .float64 "realized_pnl,omitempty"))
    (.leaf (.float64 Float64.one)) rfl rfl).2.2.1 rfl rfl (by decide)⟩

/-- C6, the claim as stated fails.  A quote whose `High` is NaN has the zero value in the
optional field `Low`, and it has no encoding to decode.  A fill whose `RawData` holds the
number `1e400` has the zero value in the optional field `OptionType`; it is encoded, and
decoding the result reports a type error.  A fill whose `RawData` holds a typed nil pointer is
encoded with the member `raw_data`, decoded without error, and encoded again without that
member: the encoded form is not the same. -/
theorem zero_roundTrip_needs_conditions :
    (∃ f, (Entity.quote nanQuote).fields[1]? = some f ∧ f.omitEmpty = true ∧
      (Entity.quote nanQuote).record[1]? = some f.kind.zero ∧
      (Entity.quote nanQuote).Marshal = .error .unsupportedValue) ∧
    (∃ f ms dst', (Entity.execution bigNumberExecution).fields[1]? = some f ∧
      f.omitEmpty = true ∧
      (Entity.execution bigNumberExecution).record[1]? = some f.kind.zero ∧
      (Entity.execution bigNumberExecution).Marshal = .ok ms ∧
      (Entity.execution bigNumberExecution).Unmarshal ms = some (dst', some .type)) ∧
    (∃ f ms dst' ms', (Entity.execution typedNilExecution).fields[1]? = some f ∧
      f.omitEmpty = true ∧
      (Entity.execution typedNilExecution).record[1]? = some f.kind.zero ∧
      (Entity.execution typedNilExecution).Marshal = .ok ms ∧
      (Entity.execution typedNilExecution).Unmarshal ms = some (dst', none) ∧
      Types.Marshal (Entity.execution typedNilExecution).fields dst' = .ok ms' ∧
      ms.lookup "raw_data" = some (.tok .null) ∧ ms'.lookup "raw_data" = none ∧ ms' ≠ ms) := by
  refine ⟨⟨_, rfl, rfl, rfl, rfl⟩, ⟨_, _, _, rfl, rfl, rfl, rfl, rfl⟩,
    ⟨_, _, _, _, rfl, rfl, rfl, rfl, rfl, rfl, rfl, rfl, by decide⟩⟩

/-- C6, amended.  For every `Quote`, `OptionQuote`, `Execution`, `Trade` and `OptionChain`
value whose encoding succeeds and every field that holds its zero value (in particular every
`omitempty` field that does): decoding the encoded object into a fresh value of the same struct
gives a value of the struct whose field is again the zero value.  Decoding reports no error
when no `RawData` payload holds a number outside the `float64` range.  Every field is read
back from its member: an omitted field as the zero value, a written field as what the decoder
makes of its member, which is the field's own value when that is exact (a number, string,
bool, slice of strings or floats, a time without monotonic reading in UTC or at a non-zero
offset, a `[]*Execution` without elements).  Encoding the decoded value again succeeds and
gives the field the same member (or none); it gives the whole object the same members when
the value is stable (no `RawData` is set). -/
theorem zero_optional_roundTrip (e : Entity) (ms : List (String × JSON))
    (h : e.Marshal = .ok ms) (i : Nat) (f : Field Kind) (hf : e.fields[i]? = some f)
    (hz : e.record[i]? = some f.kind.zero) :
    ∃ dst' err ms', e.Unmarshal ms = some (dst', err) ∧
      dst'.map Value.kind = e.fields.map Field.kind ∧
      dst'[i]? = some f.kind.zero ∧
      ((∀ v ∈ e.record, v.decodable = true) → err = none) ∧
      (∀ (j : Nat) (g : Field Kind) (v : Value), e.fields[j]? = some g →
        e.record[j]? = some v →
        ((g.omitEmpty && isEmptyValue v) = true → dst'[j]? = some g.kind.zero) ∧
        ((g.omitEmpty && isEmptyValue v) = false →
          (∃ w r e', encodeValue v = .ok w ∧ decodeValue g.kind w g.kind.zero = .done r e' ∧
            dst'[j]? = some (r.getD g.kind.zero)) ∧
          (v.exact = true → dst'[j]? = some v))) ∧
      Types.Marshal e.fields dst' = .ok ms' ∧
      ms'.lookup f.jsonName = ms.lookup f.jsonName ∧
      ((∀ v ∈ e.record, v.stable = true) → ms' = ms) := by
  rw [Entity.marshal_eq] at h
  have hgood := Entity.goodTable e
  have hconf := Entity.conforms e
  obtain ⟨dst', err, hrun, hc', hP, herr, hst, hpt⟩ := roundTrip_struct decodeValue Value.kind
    Kind.zero (fun v => ∃ j, encodeValue v = .ok j) Value.decodable Value.stable hgood hconf
    Kind.kind_zero Kind.zero_encodes (fun v hv => isEmptyValue_zero hv)
    (fun v hv w hw => by
      obtain ⟨r, e', hd, hk, hdec, hstab, _, _⟩ :=
        decodeValue_encodeValue (Entity.wellFormed e v hv) hw
      exact ⟨r, e', hd, hk, hdec, hstab⟩) h
  have hall : ∀ p ∈ e.fields.zip dst', ∃ w, encodeValue p.2 = .ok w :=
    fun p hp => hP p.2 (List.of_mem_zip hp).2
  obtain ⟨ms', hms'⟩ := marshalMembers_total isEmptyValue hall
  have hstored : ∀ (j : Nat) (g : Field Kind) (v : Value), e.fields[j]? = some g →
      e.record[j]? = some v → (g.omitEmpty && isEmptyValue v) = false →
      (v = g.kind.zero ∨ v.exact = true) → dst'[j]? = some v := by
    intro j g v hg hv hno hcase
    obtain ⟨w, r, e', hw, hd, hres⟩ := (hpt j g v hg hv).2 hno
    have hk : v.kind = g.kind := kind_of_conforms hconf hg hv
    obtain ⟨r', e'', hd', _, _, _, hzero, hex⟩ :=
      decodeValue_encodeValue (Entity.wellFormed e v (List.getElem?_mem hv)) hw
    rw [hk, hd] at hd'
    cases hd'
    have hr : r = some v := by
      rcases hcase with hzv | hx
      · exact (hzero (by rw [hk]; exact hzv)).1
      · exact hex hx
    rw [hres, hr]
    rfl
  have hi : dst'[i]? = some f.kind.zero := by
    by_cases hom : (f.omitEmpty && isEmptyValue f.kind.zero) = true
    · exact (hpt i f f.kind.zero hf hz).1 hom
    · exact hstored i f f.kind.zero hf hz (by simpa using hom) (Or.inl rfl)
  have hrun' : e.Unmarshal ms = some (dst', err) := by
    unfold Entity.Unmarshal Types.Unmarshal
    rw [Entity.fresh_record]
    exact hrun
  have hmarshal : Types.Marshal e.fields dst' = .ok ms' := by
    unfold Types.Marshal
    rw [visiblePairs_of_good hgood]
    exact hms'
  refine ⟨dst', err, ms', hrun', hc', hi, herr, ?_, hmarshal, ?_, ?_⟩
  · intro j g v hg hv
    refine ⟨(hpt j g v hg hv).1, fun hno => ⟨(hpt j g v hg hv).2 hno, fun hx => ?_⟩⟩
    exact hstored j g v hg hv hno (Or.inr hx)
  · have hnd := zip_names_nodup hgood.2 e.record
    have hnd' := zip_names_nodup hgood.2 dst'
    have hp := Entity.mem_zip hf hz
    have hp' : (f, f.kind.zero) ∈ e.fields.zip dst' :=
      List.mem_iff_getElem?.2 ⟨i, List.getElem?_zip_eq_some.2 ⟨hf, hi⟩⟩
    by_cases hom : (f.omitEmpty && isEmptyValue f.kind.zero) = true
    · rw [marshalMembers_lookup_omitted hnd h hp hom,
        marshalMembers_lookup_omitted hnd' hms' hp' hom]
    · have hno : (f.omitEmpty && isEmptyValue f.kind.zero) = false := by simpa using hom
      obtain ⟨w, hw, hl⟩ := marshalMembers_lookup_present hnd h hp hno
      obtain ⟨w', hw', hl'⟩ := marshalMembers_lookup_present hnd' hms' hp' hno
      simp only at hw hw'
      rw [hw] at hw'
      cases hw'
      rw [hl, hl']
  · intro hstable
    have := hst hstable
    rw [hms'] at this
    exact Except.ok.inj this

/-- C6, amended, at a concrete value: `sampleTrade` is encoded; decoding the object gives a
trade without error whose optional `RawData` is nil again and whose `Account` is the one
encoded, and encoding it again gives the same object. -/
theorem zero_optional_roundTrip_witness :
    ∃ ms dst', (Entity.trade sampleTrade).Marshal = .ok ms ∧
      (Entity.trade sampleTrade).Unmarshal ms = some (dst', none) ∧
      dst'[8]? = some (.leaf (.iface none)) ∧
      dst'[0]? = some (.leaf (.string "U1")) ∧
      Types.Marshal Trade.fields dst' = .ok ms := by
  obtain ⟨dst', err, ms', hrun, _, hi, herr, hpt, hm, _, hst⟩ :=
    zero_optional_roundTrip (.trade sampleTrade) _ rfl 8
      (field "RawData" (.leaf .iface) "raw_data,omitempty") rfl rfl
  have he : err = none := herr (by decide)
  have hs := hst (by decide)
  subst he
  subst hs
  exact ⟨_, dst', rfl, hrun, hi,
    ((hpt 0 (field "Account" (.leaf .string) "account") (.leaf (.string "U1")) rfl rfl).2
      rfl).2 rfl, hm⟩

/-- C7. Any map and any key list make a `VendorSpecific`, whether or not the keys are bound.
The loop over `Keys` yields one lookup per key, in order; a bound key gives a string stored
under it, an unbound key gives "not present".  For the specification's example the lookups are
`1` for `a` and not-present for `b`. -/
theorem VendorSpecific_lookups_total (data : StringMap) (keys : StringSlice) :
    (VendorSpecific.mk data keys).Data = data ∧ (VendorSpecific.mk data keys).Keys = keys ∧
    (VendorSpecific.mk data keys).lookups = (keys.getD []).map (fun k => (k, data.get k)) ∧
    (∀ k ∈ keys.getD [],
      (k ∈ data.keys → ∃ s, data.get k = some s ∧ (k, s) ∈ data.getD []) ∧
      (k ∉ data.keys → data.get k = none)) ∧
    sampleVendor.lookups = [("a", some "1"), ("b", none)] := by
  refine ⟨rfl, rfl, rfl, ?_, by decide⟩
  intro k _
  cases data with
  | none => exact ⟨fun h => (by cases h), fun _ => rfl⟩
  | some entries =>
    simp only [StringMap.keys, StringMap.get, Option.getD_some]
    constructor
    · intro hk
      cases hl : entries.lookup k with
      | none =>
        rw [List.lookup_eq_none_iff] at hl
        obtain ⟨p, hp, hpk⟩ := List.mem_map.1 hk
        have := hl p hp
        simp [hpk] at this
      | some s =>
        refine ⟨s, rfl, ?_⟩
        obtain ⟨l₁, l₂, heq, _⟩ := List.lookup_eq_some_iff.1 hl
        rw [heq]
        simp
    · intro hk
      rw [List.lookup_eq_none_iff]
      intro p hp
      rw [bne_iff_ne]
      exact fun e => hk (List.mem_map.2 ⟨p, hp, e.symm⟩)

/-- C8, the claim as stated fails.  The zero `OptionQuote` has the empty string as `Type`,
which is neither `Put` nor `Call`. -/
theorem zero_OptionQuote_Type_is_neither :
    ({} : OptionQuote).Type_.val = "" ∧
    some ({} : OptionQuote).Type_ ≠ Put.asPutOrCall ∧
    some ({} : OptionQuote).Type_ ≠ Call.asPutOrCall := by
  decide

/-- C8, amended.  The `Type` of an `OptionQuote` is one of the two constants exactly when its
string is `PUT` or `CALL`; nothing restricts it: every string is the `Type` of some
`OptionQuote`. -/
theorem OptionQuote_Type_unconstrained (o : OptionQuote) (s : String) :
    ((some o.Type_ = Put.asPutOrCall ∨ some o.Type_ = Call.asPutOrCall) ↔
      (o.Type_.val = "PUT" ∨ o.Type_.val = "CALL")) ∧
    ({ o with Type_ := ⟨s⟩ } : OptionQuote).Type_.val = s := by
  refine ⟨?_, rfl⟩
  have hput : Put.asPutOrCall = some ⟨"PUT"⟩ := by decide
  have hcall : Call.asPutOrCall = some ⟨"CALL"⟩ := by decide
  rw [hput, hcall]
  cases o.Type_ with
  | mk val => simp

/-- C9. `Yes`, `No` and `Maybe` are the integers 0, 1 and 2, pairwise different. -/
theorem Tristate_constants_distinct :
    Yes = 0 ∧ No = 1 ∧ Maybe = 2 ∧ Yes ≠ No ∧ Yes ≠ Maybe ∧ No ≠ Maybe := by
  decide

set_option maxRecDepth 100000 in
/-- C10. In each of `Quote`, `Execution`, `Trade`, `OptionChain`, `VendorSpecific` and
`Account` the JSON names are pairwise distinct; so are, for `OptionQuote`, the names of its
own fields together with those promoted from the embedded `Quote`.  Hence the encoder keeps
every field: none is shadowed or dropped. -/
theorem json_names_distinct :
    (Quote.fields.map Field.jsonName).Nodup ∧
    (Execution.fields.map Field.jsonName).Nodup ∧
    (Trade.fields.map Field.jsonName).Nodup ∧
    (OptionChain.fields.map Field.jsonName).Nodup ∧
    (VendorSpecific.fields.map Field.jsonName).Nodup ∧
    (Account.fields.map Field.jsonName).Nodup ∧
    (OptionQuote.fields.map Field.jsonName).Nodup ∧
    (typeFields Quote.fields).map Prod.snd = Quote.fields ∧
    (typeFields Execution.fields).map Prod.snd = Execution.fields ∧
    (typeFields Trade.fields).map Prod.snd = Trade.fields ∧
    (typeFields OptionChain.fields).map Prod.snd = OptionChain.fields ∧
    (typeFields VendorSpecific.fields).map Prod.snd = VendorSpecific.fields ∧
    (typeFields Account.fields).map Prod.snd = Account.fields ∧
    (typeFields OptionQuote.fields).map Prod.snd = OptionQuote.fields := by
  refine ⟨by decide, by decide, by decide, by decide, by decide, by decide, by decide,
    by decide, by decide, by decide, by decide, by decide, by decide, by decide⟩

end Types
